import Mathlib

/-!
  Verification development for the Kleem-AI node-graph canvas controller.

  The definitions below are a shallow embedding of the graph-state
  orchestration code of the canvas component (`CanvasContent`): the
  node/edge data model, the undo/redo history stacks, node creation with
  auto-placement (`addNodeGeneric`), selected-node deletion
  (`handleDeleteSelected`), prev/next tree navigation (`handleNavigate`),
  and the free-text command bridge (`handleCommandSubmit` together with
  the service function `interpretAgentCommand`).

  React state setters (`setNodes`, `setPast`, ...) are modelled as
  explicit state passing on a `CanvasState` record; within one handler
  invocation the updates are applied sequentially, which matches the
  single-threaded event semantics of the source.  `setTimeout` callbacks
  are modelled as explicitly pending deferred actions (they do not run
  during the synchronous part of the operation).  `Date.now()` is an
  explicit `now : Nat` input.
-/

namespace Kleem

/-- 2D canvas coordinate.  The source uses JS numbers; all positions the
controller itself produces are integral, so we model coordinates as `Int`. -/
structure Pos where
  x : Int
  y : Int
deriving Repr, DecidableEq

/-- The serialisable part of a node's `data` payload that the controller
reads or writes (topic, module info, lesson markdown, full-screen flag).
Closures stored in `data` (`onNavigate`, `onStart`, ...) carry no graph
state and are not modelled.  `none` models an absent JS key. -/
structure NodeData where
  topic : Option String := none
  moduleTitle : Option String := none
  moduleId : Option String := none
  context : Option String := none
  markdownContent : Option String := none
  isFullScreen : Bool := false
deriving Repr, DecidableEq

/-- A React Flow node as used by the controller: id, type tag, position,
payload and selection flag. -/
structure GNode where
  id : String
  ntype : String
  position : Pos
  data : NodeData := {}
  selected : Bool := false
deriving Repr, DecidableEq

/-- A React Flow edge: id plus source/target node ids (style fields are
presentation only and omitted). -/
structure GEdge where
  id : String
  source : String
  target : String
deriving Repr, DecidableEq

/-- A history snapshot: the full `(nodes, edges)` capture pushed by
`takeSnapshot`. -/
abbrev Snapshot := List GNode × List GEdge

/-- The controller state: live collections, the two history stacks, the
focused-node pointer, and the queue of focus updates scheduled with
`setTimeout` (deferred, in scheduling order). -/
structure CanvasState where
  nodes : List GNode
  edges : List GEdge
  past : List Snapshot
  future : List Snapshot
  focusedNodeId : Option String
  deferredFocus : List String
deriving Repr, DecidableEq

/-- `INITIAL_NODES`: the single `start` node at the origin. -/
def initialNodes : List GNode :=
  [{ id := "start", ntype := "start", position := ⟨0, 0⟩ }]

/-- Initial controller state: start node, empty edges and history,
focus on `start`. -/
def initialState : CanvasState :=
  { nodes := initialNodes, edges := [], past := [], future := [],
    focusedNodeId := some "start", deferredFocus := [] }

/-- `takeSnapshot`: `setPast(prev => [...prev.slice(-9), { nodes, edges }])`
(keep the last 10 entries) and `setFuture([])`.  `slice(-9)` keeps the
last nine elements, which is `drop (length - 9)` on lists. -/
def takeSnapshot (s : CanvasState) : CanvasState :=
  { s with
    past := (s.past.drop (s.past.length - 9)) ++ [(s.nodes, s.edges)],
    future := [] }

/-- `undo`: pop the most recent `past` entry, push the current state onto
the front of `future`, restore the popped snapshot.  No-op when `past`
is empty. -/
def undo (s : CanvasState) : CanvasState :=
  match s.past.getLast? with
  | none => s
  | some previous =>
    { s with
      past := s.past.dropLast,
      future := (s.nodes, s.edges) :: s.future,
      nodes := previous.1,
      edges := previous.2 }

/-- `redo`: take the head of `future`, push the current state onto the
end of `past` (note: without re-applying the 10-entry cap), restore it.
No-op when `future` is empty. -/
def redo (s : CanvasState) : CanvasState :=
  match s.future with
  | [] => s
  | next :: rest =>
    { s with
      future := rest,
      past := s.past ++ [(s.nodes, s.edges)],
      nodes := next.1,
      edges := next.2 }

/-- A graph-mutating operation in the sense of the history mechanism:
the handler first calls `pushHistory` (= `takeSnapshot`) and then
replaces the live `(nodes, edges)` with new collections computed from
the current ones.  `g` is the mutation body. -/
def applyMutation (g : Snapshot → Snapshot) (s : CanvasState) : CanvasState :=
  let s' := takeSnapshot s
  let r := g (s'.nodes, s'.edges)
  { s' with nodes := r.1, edges := r.2 }

/-- The operations that touch the history stacks, for reachability
statements: a guarded mutation, `undo`, or `redo`. -/
inductive HistOp where
  | mutate (g : Snapshot → Snapshot)
  | undo
  | redo

/-- Run a list of history operations from a state. -/
def runOps (ops : List HistOp) (s : CanvasState) : CanvasState :=
  match ops with
  | [] => s
  | op :: rest =>
    let s' := match op with
      | .mutate g => applyMutation g s
      | .undo => undo s
      | .redo => redo s
    runOps rest s'

/-! ### History lemmas -/

theorem takeSnapshot_past (s : CanvasState) :
    (takeSnapshot s).past =
      (s.past.drop (s.past.length - 9)) ++ [(s.nodes, s.edges)] := rfl

theorem applyMutation_past (g : Snapshot → Snapshot) (s : CanvasState) :
    (applyMutation g s).past =
      (s.past.drop (s.past.length - 9)) ++ [(s.nodes, s.edges)] := rfl

theorem applyMutation_future (g : Snapshot → Snapshot) (s : CanvasState) :
    (applyMutation g s).future = [] := rfl

theorem undo_of_mutation (g : Snapshot → Snapshot) (s : CanvasState) :
    undo (applyMutation g s) =
      { applyMutation g s with
        past := s.past.drop (s.past.length - 9),
        future := [((applyMutation g s).nodes, (applyMutation g s).edges)],
        nodes := s.nodes,
        edges := s.edges } := by
  have hlast : (applyMutation g s).past.getLast? = some (s.nodes, s.edges) := by
    rw [applyMutation_past, List.getLast?_append]
    rfl
  unfold undo
  rw [hlast]
  have hdl : (applyMutation g s).past.dropLast = s.past.drop (s.past.length - 9) := by
    rw [applyMutation_past, List.dropLast_concat]
  rw [hdl, applyMutation_future]

/-- C2 combined statement, proved below. -/
theorem undo_restores (g : Snapshot → Snapshot) (s : CanvasState) :
    (undo (applyMutation g s)).nodes = s.nodes ∧
    (undo (applyMutation g s)).edges = s.edges := by
  rw [undo_of_mutation]
  exact ⟨rfl, rfl⟩

theorem redo_restores (g : Snapshot → Snapshot) (s : CanvasState) :
    (redo (undo (applyMutation g s))).nodes = (applyMutation g s).nodes ∧
    (redo (undo (applyMutation g s))).edges = (applyMutation g s).edges := by
  rw [undo_of_mutation]
  exact ⟨rfl, rfl⟩

/-- C2.  For any graph-mutating operation `M = applyMutation g` from any
state `s`: `undo` right after `M` restores the exact `(nodes, edges)`
live before `M`; `redo` right after that `undo` restores the state after
`M`; and any new mutation (from any state, in particular after one or
more undos) leaves the `future` stack empty. -/
theorem undo_redo_roundtrip (g h : Snapshot → Snapshot) (s s' : CanvasState) :
    ((undo (applyMutation g s)).nodes = s.nodes ∧
     (undo (applyMutation g s)).edges = s.edges) ∧
    ((redo (undo (applyMutation g s))).nodes = (applyMutation g s).nodes ∧
     (redo (undo (applyMutation g s))).edges = (applyMutation g s).edges) ∧
    (applyMutation h s').future = [] :=
  ⟨undo_restores g s, redo_restores g s, applyMutation_future h s'⟩

/-! ### History cap (C3) -/

/-- The inductive invariant: the combined size of the two stacks never
exceeds 10.  `takeSnapshot` caps `past` at 10 and clears `future`;
`undo`/`redo` move one entry between the stacks. -/
def histInv (s : CanvasState) : Prop :=
  s.past.length + s.future.length ≤ 10

theorem histInv_takeSnapshot (s : CanvasState) : histInv (takeSnapshot s) := by
  unfold histInv takeSnapshot
  simp only [List.length_append, List.length_drop, List.length_cons,
    List.length_nil]
  omega

theorem histInv_mutate (g : Snapshot → Snapshot) (s : CanvasState) :
    histInv (applyMutation g s) := by
  have h := histInv_takeSnapshot s
  unfold histInv at *
  exact h

theorem histInv_undo (s : CanvasState) (h : histInv s) : histInv (undo s) := by
  unfold histInv at *
  unfold undo
  match hl : s.past.getLast? with
  | none => simpa using h
  | some previous =>
    have hne : s.past ≠ [] := by
      intro hnil
      rw [hnil] at hl
      simp at hl
    simp only [List.length_dropLast, List.length_cons]
    have : 1 ≤ s.past.length := List.length_pos.mpr hne
    omega

theorem histInv_redo (s : CanvasState) (h : histInv s) : histInv (redo s) := by
  unfold histInv at *
  unfold redo
  match hf : s.future with
  | [] => simpa using h
  | next :: rest =>
    rw [hf] at h
    simp only [List.length_append, List.length_cons, List.length_nil] at *
    omega

theorem histInv_runOps (ops : List HistOp) (s : CanvasState) (h : histInv s) :
    histInv (runOps ops s) := by
  induction ops generalizing s with
  | nil => exact h
  | cons op rest ih =>
    cases op with
    | mutate g => exact ih _ (histInv_mutate g s)
    | undo => exact ih _ (histInv_undo s h)
    | redo => exact ih _ (histInv_redo s h)

theorem histInv_initial : histInv initialState := by
  unfold histInv initialState
  simp

/-- C3.  In every state reachable from the initial state by any
interleaving of mutations (each pushing via `takeSnapshot`), undos and
redos, `past` holds at most 10 entries; and when the cap is reached
(`past` already has 10 entries) the next snapshot discards the oldest
entry first: the new `past` is the old one minus its head, plus the
fresh snapshot at the end. -/
theorem past_capped (ops : List HistOp) (s : CanvasState)
    (hcap : s.past.length = 10) :
    (runOps ops initialState).past.length ≤ 10 ∧
    (takeSnapshot s).past = s.past.drop 1 ++ [(s.nodes, s.edges)] := by
  constructor
  · have h := histInv_runOps ops initialState histInv_initial
    unfold histInv at h
    omega
  · rw [takeSnapshot_past, hcap]

/-- Concrete witness for C3: after eleven mutations from the initial
state `past` has exactly 10 entries, and the discard-oldest equation
holds at a concrete 10-deep state. -/
def idMutation : Snapshot → Snapshot := fun p => p

def elevenMutations : List HistOp :=
  List.replicate 11 (HistOp.mutate idMutation)

def tenDeepState : CanvasState :=
  runOps elevenMutations initialState

theorem past_capped_witness :
    (runOps elevenMutations initialState).past.length ≤ 10 ∧
    (takeSnapshot tenDeepState).past =
      tenDeepState.past.drop 1 ++ [(tenDeepState.nodes, tenDeepState.edges)] :=
  past_capped elevenMutations tenDeepState (by decide)

/-! ### Node creation (`addNodeGeneric`) -/

/-- `getNode(id)` of the React Flow instance: first node with the given id. -/
def getNode (s : CanvasState) (nodeId : String) : Option GNode :=
  s.nodes.find? (fun n => n.id = nodeId)

/-- The id `addNodeGeneric` assigns: `explicitId || type-Date.now()`. -/
def genId (ntype : String) (explicitId : Option String) (now : Nat) : String :=
  match explicitId with
  | some e => e
  | none => ntype ++ "-" ++ toString now

/-- Horizontal offset of a child from its parent (`xOffset = 600`). -/
def xOffset : Int := 600

/-- Vertical spacing between successive children (`ySpacing = 600`). -/
def ySpacing : Int := 600

/-- The position `addNodeGeneric` computes when no explicit position is
given: below-right of the parent by child count, else right of the
focused node, else the count-based fallback. -/
def computePos (s : CanvasState) (position : Option Pos)
    (parentId : Option String) : Pos :=
  let pos : Option Pos :=
    match position with
    | some p => some p
    | none =>
      match parentId with
      | some pid =>
        match getNode s pid with
        | some parent =>
          let existingChildren :=
            (s.edges.filter (fun e => e.source = pid)).length
          some ⟨parent.position.x + xOffset,
                parent.position.y + existingChildren * ySpacing⟩
        | none => none
      | none =>
        match s.focusedNodeId with
        | some fid =>
          match getNode s fid with
          | some focused => some ⟨focused.position.x + 600, focused.position.y⟩
          | none => none
        | none => none
  match pos with
  | some p => p
  | none =>
    let count : Int := s.nodes.length
    ⟨100 + count * 30, 100 + count * 30⟩

/-- Result of `addNodeGeneric`: the updated state and the returned id. -/
structure AddResult where
  state : CanvasState
  newId : String
deriving Repr, DecidableEq

/-- `addNodeGeneric(type, data, position?, parentId?, explicitId?)`:
pushes a history snapshot, computes the id and position, appends the new
node, appends the `parentId → id` edge when a parent is given, and
schedules (via `setTimeout`) the focus update to the new id.  The
synchronous part leaves `focusedNodeId` untouched. -/
def addNodeGeneric (ntype : String) (data : NodeData) (position : Option Pos)
    (parentId : Option String) (explicitId : Option String) (now : Nat)
    (s : CanvasState) : AddResult :=
  let s1 := takeSnapshot s
  let id := genId ntype explicitId now
  let pos := computePos s1 position parentId
  let newNode : GNode :=
    { id := id, ntype := ntype, position := pos,
      data := { data with isFullScreen := false } }
  let s2 := { s1 with nodes := s1.nodes ++ [newNode] }
  let s3 :=
    match parentId with
    | some pid =>
      { s2 with edges := s2.edges ++
          [({ id := "e-" ++ pid ++ "-" ++ id, source := pid,
              target := id } : GEdge)] }
    | none => s2
  let s4 := { s3 with deferredFocus := s3.deferredFocus ++ [id] }
  ⟨s4, id⟩

/-- Running one pending `setTimeout` callback: set `focusedNodeId` to the
scheduled id (the `fitView` call is a pure view effect). -/
def runDeferredFocus (s : CanvasState) : CanvasState :=
  match s.deferredFocus with
  | [] => s
  | id :: rest => { s with focusedNodeId := some id, deferredFocus := rest }

/-! ### C9: the focus update is deferred, not synchronous -/

theorem addNodeGeneric_nodes (ntype : String) (data : NodeData)
    (position : Option Pos) (parentId : Option String)
    (explicitId : Option String) (now : Nat) (s : CanvasState) :
    (addNodeGeneric ntype data position parentId explicitId now s).state.nodes =
      s.nodes ++
        [{ id := genId ntype explicitId now, ntype := ntype,
           position := computePos (takeSnapshot s) position parentId,
           data := { data with isFullScreen := false } }] := by
  unfold addNodeGeneric
  cases parentId <;> rfl

/-- C9 (amended).  The synchronous part of `addNodeGeneric` inserts the
node but leaves `focusedNodeId` unchanged; the focus transition to the
new id is only scheduled as a deferred (`setTimeout`) action, appended
to the pending queue — it is not part of the same synchronous operation. -/
theorem focus_update_deferred (ntype : String) (data : NodeData)
    (position : Option Pos) (parentId : Option String)
    (explicitId : Option String) (now : Nat) (s : CanvasState) :
    (addNodeGeneric ntype data position parentId explicitId now s).state.focusedNodeId
        = s.focusedNodeId ∧
    (addNodeGeneric ntype data position parentId explicitId now s).state.deferredFocus
        = s.deferredFocus ++ [genId ntype explicitId now] ∧
    (genId ntype explicitId now) ∈
      ((addNodeGeneric ntype data position parentId explicitId now s).state.nodes.map
        (fun n => n.id)) := by
  refine ⟨?_, ?_, ?_⟩
  · unfold addNodeGeneric
    cases parentId <;> rfl
  · unfold addNodeGeneric
    cases parentId <;> rfl
  · rw [addNodeGeneric_nodes]
    simp

/-- C9 counterexample (the claim as stated is false): on the initial
state, creating a `code` node does not update `focusedNodeId` to the new
node's id during the operation — it remains `start` although the node is
already inserted. -/
theorem focus_not_synchronous :
    ((addNodeGeneric "code" {} none none none 7 initialState).state.focusedNodeId
        = some "start") ∧
    ((addNodeGeneric "code" {} none none none 7 initialState).newId = "code-7") ∧
    ("code-7" ∈ ((addNodeGeneric "code" {} none none none 7
        initialState).state.nodes.map (fun n => n.id))) ∧
    some "code-7" ≠ (some "start" : Option String) := by
  refine ⟨rfl, rfl, ?_, by decide⟩
  decide

/-! ### Sequences of `createNode` calls (C6, C7) -/

/-- The arguments of one `addNodeGeneric` call, with the `Date.now()`
value it observes. -/
structure CreateCall where
  ntype : String
  data : NodeData
  position : Option Pos
  parentId : Option String
  explicitId : Option String
  now : Nat
deriving Repr, DecidableEq

/-- Apply one creation call to the state. -/
def applyCreate (c : CreateCall) (s : CanvasState) : CanvasState :=
  (addNodeGeneric c.ntype c.data c.position c.parentId c.explicitId c.now s).state

/-- Run a sequence of creation calls. -/
def runCreates : List CreateCall → CanvasState → CanvasState
  | [], s => s
  | c :: rest, s => runCreates rest (applyCreate c s)

/-- The id a call produces. -/
def callId (c : CreateCall) : String := genId c.ntype c.explicitId c.now

theorem applyCreate_nodes (c : CreateCall) (s : CanvasState) :
    (applyCreate c s).nodes = s.nodes ++
      [{ id := callId c, ntype := c.ntype,
         position := computePos (takeSnapshot s) c.position c.parentId,
         data := { c.data with isFullScreen := false } }] :=
  addNodeGeneric_nodes c.ntype c.data c.position c.parentId c.explicitId c.now s

/-- After a sequence of creation calls, the node id list is exactly the
old id list followed by the generated ids, in call order. -/
theorem runCreates_ids (calls : List CreateCall) (s : CanvasState) :
    (runCreates calls s).nodes.map (fun n => n.id) =
      s.nodes.map (fun n => n.id) ++ calls.map callId := by
  induction calls generalizing s with
  | nil => simp [runCreates]
  | cons c rest ih =>
    show (runCreates rest (applyCreate c s)).nodes.map (fun n => n.id) = _
    rw [ih, applyCreate_nodes]
    simp

/-- C6 (amended).  Node ids are exactly `explicitId`, or else
`kind ++ "-" ++ timestamp`; every call appends its node unconditionally,
so ids stay pairwise distinct precisely when the generated ids are
pairwise distinct and fresh with respect to the existing ones.  (Two
same-kind creations in the same millisecond, or a repeated explicit id,
violate uniqueness — see the counterexample.) -/
theorem unique_ids_amended (calls : List CreateCall) (s : CanvasState)
    (h : (s.nodes.map (fun n => n.id) ++ calls.map callId).Nodup) :
    ((runCreates calls s).nodes.map (fun n => n.id) =
        s.nodes.map (fun n => n.id) ++ calls.map callId) ∧
    ((runCreates calls s).nodes.map (fun n => n.id)).Nodup := by
  refine ⟨runCreates_ids calls s, ?_⟩
  rw [runCreates_ids]
  exact h

/-- Witness for C6: three creations with distinct timestamps from the
initial state keep all ids distinct. -/
theorem unique_ids_amended_witness :
    ((runCreates
        [⟨"code", {}, none, none, none, 1⟩,
         ⟨"quiz", {}, none, none, none, 2⟩,
         ⟨"study", {}, none, none, none, 3⟩] initialState).nodes.map
      (fun n => n.id)).Nodup :=
  (unique_ids_amended _ initialState (by decide)).2

/-- C6 counterexample: two `code` nodes created in the same millisecond
(`Date.now() = 100`) both get id `code-100`; the node list then contains
two nodes with the same id, so the claimed uniqueness fails. -/
theorem duplicate_ids_counterexample :
    ((runCreates [⟨"code", {}, none, none, none, 100⟩,
                  ⟨"code", {}, none, none, none, 100⟩] initialState).nodes.map
        (fun n => n.id) = ["start", "code-100", "code-100"]) ∧
    ¬ ((runCreates [⟨"code", {}, none, none, none, 100⟩,
                    ⟨"code", {}, none, none, none, 100⟩] initialState).nodes.map
        (fun n => n.id)).Nodup := by
  constructor
  · rw [runCreates_ids]
    decide
  · rw [runCreates_ids]
    decide

/-! ### Child placement (C7) -/

theorem takeSnapshot_nodes (s : CanvasState) :
    (takeSnapshot s).nodes = s.nodes := rfl

theorem takeSnapshot_edges (s : CanvasState) :
    (takeSnapshot s).edges = s.edges := rfl

theorem applyCreate_edges_child (c : CreateCall) (s : CanvasState) (p : String)
    (hc : c.parentId = some p) :
    (applyCreate c s).edges = s.edges ++
      [{ id := "e-" ++ p ++ "-" ++ callId c, source := p, target := callId c }] := by
  unfold applyCreate addNodeGeneric
  rw [hc]
  rfl

theorem getNode_applyCreate (c : CreateCall) (s : CanvasState) (p : String)
    (parent : GNode) (hp : getNode s p = some parent) :
    getNode (applyCreate c s) p = some parent := by
  unfold getNode at *
  rw [applyCreate_nodes, List.find?_append, hp]
  rfl

/-- Position the code computes for a child call when the parent resolves:
`parent.position + (xOffset, existingChildCount * ySpacing)`. -/
theorem computePos_child (s : CanvasState) (p : String) (parent : GNode)
    (hp : getNode s p = some parent) :
    computePos s none (some p) =
      ⟨parent.position.x + xOffset,
       parent.position.y +
         ((s.edges.filter (fun e => e.source = p)).length : Int) * ySpacing⟩ := by
  unfold computePos
  simp only [hp]

/-- Child-edge count grows by one per child call. -/
theorem childCount_applyCreate (c : CreateCall) (s : CanvasState) (p : String)
    (hc : c.parentId = some p) :
    ((applyCreate c s).edges.filter (fun e => e.source = p)).length =
      ((s.edges.filter (fun e => e.source = p)).length) + 1 := by
  rw [applyCreate_edges_child c s p hc]
  simp

/-- `runCreates` only ever appends nodes. -/
theorem runCreates_nodes_extend (calls : List CreateCall) (s : CanvasState) :
    ∃ tl, (runCreates calls s).nodes = s.nodes ++ tl := by
  induction calls generalizing s with
  | nil => exact ⟨[], by simp [runCreates]⟩
  | cons c rest ih =>
    obtain ⟨tl, htl⟩ := ih (applyCreate c s)
    rw [applyCreate_nodes, List.append_assoc] at htl
    exact ⟨_, htl⟩

/-- C7 (amended), core computation.  Starting from a state where the
parent `p` resolves to `parent` and already has `m` outgoing edges,
running a sequence of child creations (parent `p`, no explicit position)
places the `k`-th created node (0-based) at
`(parent.x + xOffset, parent.y + (m + k) * ySpacing)`. -/
theorem child_positions (calls : List CreateCall) (s : CanvasState)
    (p : String) (parent : GNode)
    (hp : getNode s p = some parent)
    (hcalls : ∀ c ∈ calls, c.parentId = some p ∧ c.position = none) :
    ((runCreates calls s).nodes.map (fun n => n.position)).drop s.nodes.length =
      (List.range calls.length).map (fun k : Nat =>
        (⟨parent.position.x + xOffset,
          parent.position.y +
            (((s.edges.filter (fun e => e.source = p)).length : Int) + (k : Int)) *
              ySpacing⟩ : Pos)) := by
  induction calls generalizing s with
  | nil =>
    show ((s.nodes.map (fun n => n.position)).drop s.nodes.length) = []
    simp
  | cons c rest ih =>
    obtain ⟨hcp, hcpos⟩ := hcalls c (by simp)
    have hrest : ∀ c' ∈ rest, c'.parentId = some p ∧ c'.position = none :=
      fun c' hc' => hcalls c' (by simp [hc'])
    have hp' : getNode (applyCreate c s) p = some parent :=
      getNode_applyCreate c s p parent hp
    have hnodes : (applyCreate c s).nodes = s.nodes ++
        [{ id := callId c, ntype := c.ntype,
           position := ⟨parent.position.x + xOffset,
             parent.position.y +
               ((s.edges.filter (fun e => e.source = p)).length : Int) *
                 ySpacing⟩,
           data := { c.data with isFullScreen := false } }] := by
      rw [applyCreate_nodes, hcpos, hcp,
        computePos_child (takeSnapshot s) p parent hp, takeSnapshot_edges]
    have ihx := ih (applyCreate c s) hp' hrest
    rw [childCount_applyCreate c s p hcp] at ihx
    obtain ⟨tl, htl⟩ := runCreates_nodes_extend rest (applyCreate c s)
    have htlmap : tl.map (fun n => n.position) =
        (List.range rest.length).map (fun k : Nat =>
          (⟨parent.position.x + xOffset,
            parent.position.y +
              ((((s.edges.filter (fun e => e.source = p)).length + 1 : Nat) : Int)
                  + (k : Int)) * ySpacing⟩ : Pos)) := by
      rw [htl, List.map_append,
        ← List.length_map ((applyCreate c s).nodes) (fun n => n.position),
        List.drop_left] at ihx
      exact ihx
    show ((runCreates rest (applyCreate c s)).nodes.map
        (fun n => n.position)).drop s.nodes.length = _
    rw [htl, hnodes, List.append_assoc, List.map_append,
      ← List.length_map s.nodes (fun n => n.position), List.drop_left,
      List.singleton_append, List.map_cons, htlmap, List.length_cons,
      List.range_succ_eq_map, List.map_cons, List.map_map]
    refine List.cons_eq_cons.mpr ⟨?_, ?_⟩
    · simp
    · apply List.map_congr_left
      intro k _
      show (⟨_, _⟩ : Pos) = ⟨_, _⟩
      have harith : ((((s.edges.filter (fun e => e.source = p)).length + 1 : Nat) : Int)
          + (k : Int)) = (((s.edges.filter (fun e => e.source = p)).length : Int)
          + ((k + 1 : Nat) : Int)) := by
        push_cast
        ring
      rw [harith]

/-- C7 (amended).  With `m` the parent's pre-existing outgoing-edge
count, the `k`-th created child lands at
`(parent.x + xOffset, parent.y + (m + k) * ySpacing)`; consequently the
created children have pairwise-distinct, strictly increasing `y`
positions in insertion order.  (When `m = 0` this is the claimed
`p.y + k * ySpacing`; a parent with pre-existing outgoing edges shifts
the whole stack down by `m * ySpacing` — see the counterexample.) -/
theorem child_placement (calls : List CreateCall) (s : CanvasState)
    (p : String) (parent : GNode)
    (hp : getNode s p = some parent)
    (hcalls : ∀ c ∈ calls, c.parentId = some p ∧ c.position = none) :
    (((runCreates calls s).nodes.map (fun n => n.position)).drop s.nodes.length =
      (List.range calls.length).map (fun k : Nat =>
        (⟨parent.position.x + xOffset,
          parent.position.y +
            (((s.edges.filter (fun e => e.source = p)).length : Int) + (k : Int)) *
              ySpacing⟩ : Pos))) ∧
    List.Chain' (fun a b : Pos => a.y < b.y)
      (((runCreates calls s).nodes.map (fun n => n.position)).drop s.nodes.length) := by
  have hmain := child_positions calls s p parent hp hcalls
  refine ⟨hmain, ?_⟩
  rw [hmain, List.chain'_map]
  apply List.Pairwise.chain'
  apply (List.pairwise_lt_range calls.length).imp
  intro a b hab
  show _ + (_ + (a : Int)) * ySpacing < _ + (_ + (b : Int)) * ySpacing
  have hab' : (a : Int) < (b : Int) := by exact_mod_cast hab
  unfold ySpacing
  omega

/-- A state whose `start` node already has one child, for the C7
counterexample. -/
def c7State : CanvasState :=
  { nodes := [{ id := "start", ntype := "start", position := ⟨0, 0⟩ },
              { id := "study-1", ntype := "study", position := ⟨600, 0⟩ }],
    edges := [{ id := "e-start-study-1", source := "start", target := "study-1" }],
    past := [], future := [], focusedNodeId := some "start",
    deferredFocus := [] }

/-- C7 counterexample: the parent exists and already has one outgoing
edge; the first (`k = 0`) child created without an explicit position is
placed at `y = 600`, not at `parent.y + 0 * ySpacing = 0` as the claim's
formula demands. -/
theorem child_position_counterexample :
    (((applyCreate ⟨"quiz", {}, none, some "start", none, 50⟩
          c7State).nodes.map (fun n => n.position)).drop 2 =
      [⟨600, 600⟩]) ∧
    (⟨600, 600⟩ : Pos) ≠
      ⟨(0 : Int) + xOffset, (0 : Int) + ((0 : Int) * ySpacing)⟩ := by
  constructor
  · rw [applyCreate_nodes]
    decide
  · decide

theorem child_placement_witness :
    (getNode c7State "start" =
      some { id := "start", ntype := "start", position := ⟨0, 0⟩ }) ∧
    ((((runCreates [⟨"quiz", {}, none, some "start", none, 50⟩]
            c7State).nodes.map (fun n => n.position)).drop
          c7State.nodes.length =
        (List.range
            ([(⟨"quiz", {}, none, some "start", none, 50⟩ :
                CreateCall)].length)).map
          (fun k : Nat =>
            (⟨(⟨0, 0⟩ : Pos).x + xOffset,
              (⟨0, 0⟩ : Pos).y +
                (((c7State.edges.filter
                      (fun e => e.source = "start")).length : Int) +
                    (k : Int)) * ySpacing⟩ : Pos))) ∧
      List.Chain' (fun a b : Pos => a.y < b.y)
        (((runCreates [⟨"quiz", {}, none, some "start", none, 50⟩]
            c7State).nodes.map (fun n => n.position)).drop
          c7State.nodes.length)) :=
  ⟨rfl,
   child_placement [⟨"quiz", {}, none, some "start", none, 50⟩] c7State
     "start" { id := "start", ntype := "start", position := ⟨0, 0⟩ }
     rfl
     (by
       intro c hc
       rw [List.mem_singleton] at hc
       subst hc
       exact ⟨rfl, rfl⟩)⟩

/-! ### Deletion (`handleDeleteSelected`, C8) -/

/-- The ids React Flow would delete: ids of the currently selected
nodes (`getNodes().filter(n => n.selected)`). -/
def selIds (s : CanvasState) : List String :=
  (s.nodes.filter (fun n => n.selected)).map (fun n => n.id)

/-- `handleDeleteSelected`: push a history snapshot (unconditionally),
then, if any node is selected, remove all selected nodes and — per React
Flow `deleteElements` — every edge incident to a removed node. -/
def deleteSelected (s : CanvasState) : CanvasState :=
  if (selIds s).length > 0 then
    { takeSnapshot s with
      nodes := s.nodes.filter (fun n => n.id ∉ selIds s),
      edges := s.edges.filter
        (fun e => e.source ∉ selIds s ∧ e.target ∉ selIds s) }
  else takeSnapshot s

/-- The root invariant of the data model: exactly one node of kind
`start`, and no edge points into a `start` node. -/
def startInv (s : CanvasState) : Prop :=
  (s.nodes.filter (fun n => n.ntype = "start")).length = 1 ∧
  ∀ n ∈ s.nodes, n.ntype = "start" → ∀ e ∈ s.edges, e.target ≠ n.id

theorem addNodeGeneric_edges (ntype : String) (data : NodeData)
    (position : Option Pos) (parentId : Option String)
    (explicitId : Option String) (now : Nat) (s : CanvasState) :
    (addNodeGeneric ntype data position parentId explicitId now s).state.edges =
      s.edges ++
        (match parentId with
         | some pid => [{ id := "e-" ++ pid ++ "-" ++ genId ntype explicitId now,
                          source := pid, target := genId ntype explicitId now }]
         | none => []) := by
  unfold addNodeGeneric
  cases parentId
  · rw [List.append_nil]
    rfl
  · rfl

theorem selIds_eq_nil (s : CanvasState) (h : ¬ (selIds s).length > 0) :
    selIds s = [] := by
  rcases hs : selIds s with _ | ⟨a, l⟩
  · rfl
  · rw [hs] at h
    simp at h

theorem deleteSelected_nodes (s : CanvasState) :
    (deleteSelected s).nodes = s.nodes.filter (fun n => n.id ∉ selIds s) := by
  unfold deleteSelected
  by_cases h : (selIds s).length > 0
  · rw [if_pos h]
  · rw [if_neg h]
    show s.nodes = _
    rw [selIds_eq_nil s h]
    simp

theorem deleteSelected_edges (s : CanvasState) :
    (deleteSelected s).edges = s.edges.filter
      (fun e => e.source ∉ selIds s ∧ e.target ∉ selIds s) := by
  unfold deleteSelected
  by_cases h : (selIds s).length > 0
  · rw [if_pos h]
  · rw [if_neg h]
    show s.edges = _
    rw [selIds_eq_nil s h]
    simp

/-- C8 (amended).  The amended invariant statement: (a) `addNodeGeneric`
preserves the unique-`start`/no-incoming-edge invariant whenever it
creates a non-`start` node whose id does not collide with a `start`
node's id; (b) `deleteSelected` preserves it when no selected node
carries a `start` node's id; but (c) — contrary to the claim — there is
no hard protection: every selected node, the `start` node included, is
removed by `deleteSelected`. -/
theorem start_invariant_amended :
    (∀ (ntype : String) (data : NodeData) (position : Option Pos)
        (parentId : Option String) (explicitId : Option String) (now : Nat)
        (s : CanvasState), startInv s → ntype ≠ "start" →
        (∀ n ∈ s.nodes, n.ntype = "start" → genId ntype explicitId now ≠ n.id) →
        startInv (addNodeGeneric ntype data position parentId explicitId now s).state) ∧
    (∀ s : CanvasState, startInv s →
        (∀ n ∈ s.nodes, n.ntype = "start" → n.id ∉ selIds s) →
        startInv (deleteSelected s)) ∧
    (∀ s : CanvasState, ∀ n ∈ s.nodes, n.selected = true →
        n.id ∉ (deleteSelected s).nodes.map (fun m => m.id)) := by
  refine ⟨?_, ?_, ?_⟩
  · intro ntype data position parentId explicitId now s hinv hnt hfresh
    obtain ⟨hcount, hnoin⟩ := hinv
    constructor
    · rw [addNodeGeneric_nodes, List.filter_append]
      have hone : List.filter (fun n => decide (n.ntype = "start"))
          ([{ id := genId ntype explicitId now, ntype := ntype,
              position := computePos (takeSnapshot s) position parentId,
              data := { data with isFullScreen := false } }] : List GNode) = [] := by
        simp [hnt]
      rw [hone, List.append_nil]
      exact hcount
    · intro n hn hstart e he
      rw [addNodeGeneric_nodes] at hn
      rw [addNodeGeneric_edges] at he
      rcases List.mem_append.mp hn with hn' | hn'
      · rcases List.mem_append.mp he with he' | he'
        · exact hnoin n hn' hstart e he'
        · cases parentId with
          | none => simp at he'
          | some pid =>
            simp only [List.mem_singleton] at he'
            subst he'
            exact hfresh n hn' hstart
      · simp only [List.mem_singleton] at hn'
        subst hn'
        simp only at hstart
        exact absurd hstart hnt
  · intro s hinv hsel
    obtain ⟨hcount, hnoin⟩ := hinv
    constructor
    · rw [deleteSelected_nodes, List.filter_comm]
      have heq : List.filter
          (fun n => decide (n.id ∉ selIds s))
          (List.filter (fun n => decide (n.ntype = "start")) s.nodes) =
          List.filter (fun n => decide (n.ntype = "start")) s.nodes := by
        apply List.filter_eq_self.mpr
        intro a ha
        rw [List.mem_filter] at ha
        obtain ⟨hamem, hastart⟩ := ha
        rw [decide_eq_true_eq] at hastart ⊢
        exact hsel a hamem hastart
      rw [heq]
      exact hcount
    · intro n hn hstart e he
      rw [deleteSelected_nodes, List.mem_filter] at hn
      rw [deleteSelected_edges, List.mem_filter] at he
      exact hnoin n hn.1 hstart e he.1
  · intro s n hn hselected
    rw [deleteSelected_nodes]
    intro hcontra
    rw [List.mem_map] at hcontra
    obtain ⟨m, hm, hmid⟩ := hcontra
    rw [List.mem_filter, decide_eq_true_eq] at hm
    apply hm.2
    rw [hmid]
    exact List.mem_map_of_mem _ (List.mem_filter.mpr ⟨hn, by rw [hselected]⟩)

/-- The C7 state with the `study-1` child selected, for the C8 witness. -/
def c8SelState : CanvasState :=
  { nodes := [{ id := "start", ntype := "start", position := ⟨0, 0⟩ },
              { id := "study-1", ntype := "study", position := ⟨600, 0⟩,
                data := {}, selected := true }],
    edges := [{ id := "e-start-study-1", source := "start", target := "study-1" }],
    past := [], future := [], focusedNodeId := some "start",
    deferredFocus := [] }

/-- Witness for C8 (amended): a concrete non-`start` creation and a
deletion with `start` unselected both preserve the invariant, and a
concrete selected node is indeed removed. -/
theorem start_invariant_amended_witness :
    startInv (addNodeGeneric "code" {} none none none 3 initialState).state ∧
    startInv (deleteSelected c8SelState) ∧
    "study-1" ∉ (deleteSelected c8SelState).nodes.map (fun m => m.id) := by
  refine ⟨?_, ?_, ?_⟩
  · exact start_invariant_amended.1 "code" {} none none none 3 initialState
      ⟨by decide, by decide⟩ (by decide) (by decide)
  · exact start_invariant_amended.2.1 c8SelState ⟨by decide, by decide⟩
      (by decide)
  · exact start_invariant_amended.2.2 c8SelState
      { id := "study-1", ntype := "study", position := ⟨600, 0⟩,
        data := {}, selected := true } (by decide) rfl

/-- C8 counterexample: a selected `start` node is removed by
`deleteSelected` — there is no hard protection, and afterwards no node
of kind `start` remains. -/
theorem start_deleted_counterexample :
    ((deleteSelected
        { nodes := [{ id := "start", ntype := "start", position := ⟨0, 0⟩,
                      data := {}, selected := true },
                    { id := "code-1", ntype := "code", position := ⟨600, 0⟩ }],
          edges := [], past := [], future := [],
          focusedNodeId := some "start", deferredFocus := [] }).nodes.map
      (fun n => n.id) = ["code-1"]) ∧
    ((deleteSelected
        { nodes := [{ id := "start", ntype := "start", position := ⟨0, 0⟩,
                      data := {}, selected := true },
                    { id := "code-1", ntype := "code", position := ⟨600, 0⟩ }],
          edges := [], past := [], future := [],
          focusedNodeId := some "start", deferredFocus := [] }).nodes.filter
      (fun n => n.ntype = "start")).length = 0 := by
  constructor
  · decide
  · decide

/-! ### Command interpretation (`interpretAgentCommand`, C10) -/

/-- JS `a || b` on strings: the empty string is falsy. -/
def jsOr (a b : String) : String := if a = "" then b else a

/-- JS `String.prototype.trim()`: strip leading and trailing whitespace.
Modelled structurally on the character list (Lean's own `String.trim`
is defined by well-founded recursion and does not reduce in the
kernel). -/
def jsTrim (s : String) : String :=
  String.mk (((s.data.dropWhile Char.isWhitespace).reverse.dropWhile
    Char.isWhitespace).reverse)

/-- JS truthiness of an optional string field: an absent key and the
empty string are both falsy. -/
def jsTruthy (o : Option String) : Option String :=
  match o with
  | some s => if s = "" then none else some s
  | none => none

/-- The `{type, data}` directive obtained by parsing the model's JSON
response.  `dtype = none` models a JSON object without a `type` key; the
`data` payload is restricted to the fields the controller reads. -/
structure Directive where
  dtype : Option String := none
  data : NodeData := {}
deriving Repr, DecidableEq

/-- The hard-coded fallback directive of `interpretAgentCommand`:
`{ type: 'study', data: { topic: command || context || 'General Topic' } }`. -/
def fallbackDirective (command context : String) : Directive :=
  { dtype := some "study",
    data := { topic := some (jsOr command (jsOr context "General Topic")) } }

/-- `interpretAgentCommand(command, context)`.  The external model call
is represented by its outcome: `.error ()` when `generateContent`
rejects, `.ok txt` when it resolves with `response.text = txt`
(`none` = the field is undefined).  `parse` models `JSON.parse`
(`none` = the text is unparseable, i.e. `JSON.parse` throws).  The
`try`/`catch` around both turns every failure into the fallback
directive, so the returned promise never rejects. -/
def interpretAgentCommand (command context : String)
    (response : Except Unit (Option String))
    (parse : String → Option Directive) : Directive :=
  match response with
  | .error _ => fallbackDirective command context
  | .ok txt =>
    match parse (jsOr (txt.getD "") "{}") with
    | some d => d
    | none => fallbackDirective command context

/-- C10.  For every prompt and context, `interpretAgentCommand` resolves
(never rejects): when the model call throws, or when its response text
is unparseable, the result is exactly the fallback directive
`{ type: 'study', data: { topic: command || context || 'General Topic' } }`. -/
theorem interpret_resolves_with_fallback (command context : String)
    (txt : Option String) (parse : String → Option Directive) :
    (interpretAgentCommand command context (.error ()) parse =
      { dtype := some "study",
        data := { topic := some (jsOr command (jsOr context "General Topic")) } }) ∧
    (parse (jsOr (txt.getD "") "{}") = none →
      interpretAgentCommand command context (.ok txt) parse =
        { dtype := some "study",
          data := { topic := some (jsOr command (jsOr context "General Topic")) } }) := by
  constructor
  · rfl
  · intro hparse
    show (match parse (jsOr (txt.getD "") "{}") with
          | some d => d
          | none => fallbackDirective command context) = _
    rw [hparse]
    rfl

/-- Witness for C10 at a concrete failing call: the model throws (left)
or returns unparseable text (right); both give the fallback study
directive with the command as topic. -/
theorem interpret_resolves_with_fallback_witness :
    (interpretAgentCommand "quiz me" "Algebra" (.error ()) (fun _ => none) =
      { dtype := some "study", data := { topic := some "quiz me" } }) ∧
    (interpretAgentCommand "quiz me" "Algebra" (.ok (some "not json"))
        (fun _ => none) =
      { dtype := some "study", data := { topic := some "quiz me" } }) := by
  have h := interpret_resolves_with_fallback "quiz me" "Algebra"
    (some "not json") (fun _ => none)
  exact ⟨h.1, h.2 rfl⟩

/-! ### The command bridge (`handleCommandSubmit`, C1) -/

/-- `const parent = sourceNodeId || focusedNodeId`. -/
def submitParent (sourceNodeId : Option String) (s : CanvasState) :
    Option String :=
  match sourceNodeId with
  | some sid => if sid = "" then s.focusedNodeId else some sid
  | none => s.focusedNodeId

/-- Context topic extracted from the parent node:
`data.topic`, else `data.moduleTitle`, else the initial `''`. -/
def submitContextTopic (s : CanvasState) (parent : Option String) : String :=
  match parent with
  | some pid =>
    match getNode s pid with
    | some pNode =>
      match jsTruthy pNode.data.topic with
      | some t => t
      | none =>
        match jsTruthy pNode.data.moduleTitle with
        | some mt => mt
        | none => ""
    | none => ""
  | none => ""

/-- The `contextData` object: `topic` is always assigned (possibly the
empty string), `context` only when the parent has truthy
`markdownContent`. -/
def submitContextData (s : CanvasState) (parent : Option String) : NodeData :=
  match parent with
  | some pid =>
    match getNode s pid with
    | some pNode =>
      { topic := some (submitContextTopic s parent),
        context := jsTruthy pNode.data.markdownContent }
    | none => {}
  | none => {}

/-- JS object spread `{...a, ...b}` on the modelled payload fields: a
key present in `b` wins. -/
def mergeData (a b : NodeData) : NodeData :=
  { topic := b.topic <|> a.topic,
    moduleTitle := b.moduleTitle <|> a.moduleTitle,
    moduleId := b.moduleId <|> a.moduleId,
    context := b.context <|> a.context,
    markdownContent := b.markdownContent <|> a.markdownContent,
    isFullScreen := b.isFullScreen }

/-- The post-merge defaulting: a falsy topic becomes `"General Study"`;
for `study` directives a falsy `moduleTitle` defaults to the topic and a
falsy `moduleId` to `gen-Date.now()`. -/
def fillDefaults (cmd : Directive) (merged : NodeData) (now : Nat) : NodeData :=
  let d1 := if (jsTruthy merged.topic).isNone
            then { merged with topic := some "General Study" } else merged
  if cmd.dtype = some "study" then
    let d2 := if (jsTruthy d1.moduleTitle).isNone
              then { d1 with moduleTitle := d1.topic } else d1
    if (jsTruthy d2.moduleId).isNone
    then { d2 with moduleId := some ("gen-" ++ toString now) } else d2
  else d1

/-- `addNodeGeneric(cmd.type, ...)`: a missing `type` key passes the JS
`undefined` value, which the template literal in the id stringifies as
`"undefined"`. -/
def directiveNtype (cmd : Directive) : String :=
  match cmd.dtype with
  | some t => t
  | none => "undefined"

/-- `parent || undefined` in the `addNodeGeneric` call. -/
def parentArg (parent : Option String) : Option String :=
  match parent with
  | some p => if p = "" then none else some p
  | none => none

/-- Result of `handleCommandSubmit`: the updated state and whether the
`alert("Could not understand command.")` branch ran. -/
structure SubmitResult where
  state : CanvasState
  alerted : Bool
deriving Repr, DecidableEq

/-- `handleCommandSubmit(prompt, sourceNodeId?, targetPosition?)`.
The guard returns unchanged on a whitespace-only prompt.  The `catch`
branch (the alert) only runs when the `try` body throws; since
`interpretAgentCommand` resolves on every input (C10) and the remaining
body consists of total operations, the modelled execution never
alerts. -/
def handleCommandSubmit (prompt : String) (sourceNodeId : Option String)
    (targetPosition : Option Pos) (response : Except Unit (Option String))
    (parse : String → Option Directive) (now : Nat) (s : CanvasState) :
    SubmitResult :=
  if jsTrim prompt = "" then ⟨s, false⟩
  else
    ⟨(addNodeGeneric
        (directiveNtype (interpretAgentCommand prompt
          (submitContextTopic s (submitParent sourceNodeId s)) response parse))
        (fillDefaults
          (interpretAgentCommand prompt
            (submitContextTopic s (submitParent sourceNodeId s)) response parse)
          (mergeData (submitContextData s (submitParent sourceNodeId s))
            (interpretAgentCommand prompt
              (submitContextTopic s (submitParent sourceNodeId s))
              response parse).data)
          now)
        targetPosition (parentArg (submitParent sourceNodeId s)) none now
        s).state,
     false⟩

/-- The two failure modes of the collaborator call: the request throws,
or the response text does not parse. -/
def interpFailed (response : Except Unit (Option String))
    (parse : String → Option Directive) : Prop :=
  match response with
  | .error _ => True
  | .ok txt => parse (jsOr (txt.getD "") "{}") = none

theorem interpFailed_fallback (command context : String)
    (response : Except Unit (Option String))
    (parse : String → Option Directive) (hf : interpFailed response parse) :
    interpretAgentCommand command context response parse =
      fallbackDirective command context := by
  match response with
  | .error _ => rfl
  | .ok txt =>
    have hf' : parse (jsOr (txt.getD "") "{}") = none := hf
    show (match parse (jsOr (txt.getD "") "{}") with
          | some d => d
          | none => fallbackDirective command context) = _
    rw [hf']

theorem addNodeGeneric_past (ntype : String) (data : NodeData)
    (position : Option Pos) (parentId : Option String)
    (explicitId : Option String) (now : Nat) (s : CanvasState) :
    (addNodeGeneric ntype data position parentId explicitId now s).state.past =
      s.past.drop (s.past.length - 9) ++ [(s.nodes, s.edges)] := by
  unfold addNodeGeneric
  cases parentId <;> rfl

/-- If the merged payload's topic is truthy, none of the default-filling
steps change it. -/
theorem fillDefaults_topic (cmd : Directive) (merged : NodeData) (now : Nat)
    (h : ¬ (jsTruthy merged.topic).isNone = true) :
    (fillDefaults cmd merged now).topic = merged.topic := by
  unfold fillDefaults
  rw [if_neg h]
  by_cases hst : cmd.dtype = some "study"
  · rw [if_pos hst]
    by_cases hmt : (jsTruthy merged.moduleTitle).isNone = true
    · rw [if_pos hmt]
      by_cases hmi : (jsTruthy ({ merged with
          moduleTitle := merged.topic } : NodeData).moduleId).isNone = true
      · rw [if_pos hmi]
      · rw [if_neg hmi]
    · rw [if_neg hmt]
      by_cases hmi : (jsTruthy merged.moduleId).isNone = true
      · rw [if_pos hmi]
      · rw [if_neg hmi]
  · rw [if_neg hst]

/-- C1 (amended).  When the collaborator call fails (throw or
unparseable response) and the prompt is non-blank, `handleCommandSubmit`
does NOT surface a failure notice and does NOT leave the graph
unchanged: `interpretAgentCommand` swallows the failure into the
fallback study directive, so the handler pushes a history snapshot and
appends a `study` node whose topic is the prompt text; no alert runs. -/
theorem command_failure_amended (prompt : String) (sourceNodeId : Option String)
    (targetPosition : Option Pos) (response : Except Unit (Option String))
    (parse : String → Option Directive) (now : Nat) (s : CanvasState)
    (hpt : ¬ jsTrim prompt = "") (hf : interpFailed response parse) :
    (handleCommandSubmit prompt sourceNodeId targetPosition response parse
        now s).alerted = false ∧
    (handleCommandSubmit prompt sourceNodeId targetPosition response parse
        now s).state.nodes.map (fun n => n.ntype) =
      s.nodes.map (fun n => n.ntype) ++ ["study"] ∧
    ((handleCommandSubmit prompt sourceNodeId targetPosition response parse
        now s).state.nodes.getLast?).map (fun n => n.data.topic) =
      some (some prompt) ∧
    (handleCommandSubmit prompt sourceNodeId targetPosition response parse
        now s).state.past =
      s.past.drop (s.past.length - 9) ++ [(s.nodes, s.edges)] := by
  have hp : ¬ prompt = "" := by
    intro h
    apply hpt
    rw [h]
    rfl
  have hcmd := interpFailed_fallback prompt
    (submitContextTopic s (submitParent sourceNodeId s)) response parse hf
  have htopic : (fallbackDirective prompt
      (submitContextTopic s (submitParent sourceNodeId s))).data.topic =
      some prompt := by
    unfold fallbackDirective jsOr
    rw [if_neg hp]
  have hm : (mergeData (submitContextData s (submitParent sourceNodeId s))
      (fallbackDirective prompt
        (submitContextTopic s (submitParent sourceNodeId s))).data).topic =
      some prompt := by
    show ((fallbackDirective prompt
      (submitContextTopic s (submitParent sourceNodeId s))).data.topic <|>
        (submitContextData s (submitParent sourceNodeId s)).topic) = some prompt
    rw [htopic]
    rfl
  have hjt : jsTruthy (some prompt) = some prompt := by
    show (if prompt = "" then none else some prompt) = some prompt
    rw [if_neg hp]
  have hnn : ¬ (jsTruthy (mergeData
      (submitContextData s (submitParent sourceNodeId s))
      (fallbackDirective prompt
        (submitContextTopic s (submitParent sourceNodeId s))).data).topic).isNone
        = true := by
    rw [hm, hjt]
    intro hcontra
    simp at hcontra
  have hfinal := fillDefaults_topic
    (fallbackDirective prompt
      (submitContextTopic s (submitParent sourceNodeId s)))
    (mergeData (submitContextData s (submitParent sourceNodeId s))
      (fallbackDirective prompt
        (submitContextTopic s (submitParent sourceNodeId s))).data)
    now hnn
  rw [hm] at hfinal
  unfold handleCommandSubmit
  rw [if_neg hpt, hcmd]
  refine ⟨rfl, ?_, ?_, ?_⟩
  · rw [addNodeGeneric_nodes]
    simp only [List.map_append, List.map_cons, List.map_nil]
    rfl
  · rw [addNodeGeneric_nodes, List.getLast?_concat]
    show some ((fillDefaults _ _ now).topic) = some (some prompt)
    rw [hfinal]
  · rw [addNodeGeneric_past]

/-- Witness for C1's amended theorem at a concrete failing command. -/
theorem command_failure_amended_witness :
    (handleCommandSubmit "quiz me" none none (.error ()) (fun _ => none) 5
        initialState).alerted = false ∧
    (handleCommandSubmit "quiz me" none none (.error ()) (fun _ => none) 5
        initialState).state.nodes.map (fun n => n.ntype) =
      ["start", "study"] ∧
    ((handleCommandSubmit "quiz me" none none (.error ()) (fun _ => none) 5
        initialState).state.nodes.getLast?).map (fun n => n.data.topic) =
      some (some "quiz me") ∧
    (handleCommandSubmit "quiz me" none none (.error ()) (fun _ => none) 5
        initialState).state.past = [(initialNodes, [])] :=
  command_failure_amended "quiz me" none none (.error ()) (fun _ => none) 5
    initialState (by decide) trivial

/-- C1 counterexample: with the collaborator throwing, the handler shows
no alert, yet the node list grows (a `study-5` node is created) and a
snapshot is pushed — the graph does not stay unchanged, refuting the
claim as stated. -/
theorem command_failure_counterexample :
    ((handleCommandSubmit "quiz me" none none (.error ()) (fun _ => none) 5
        initialState).alerted = false) ∧
    ((handleCommandSubmit "quiz me" none none (.error ()) (fun _ => none) 5
        initialState).state.nodes.map (fun n => n.id) =
      ["start", "study-5"]) ∧
    ((handleCommandSubmit "quiz me" none none (.error ()) (fun _ => none) 5
        initialState).state.past ≠ initialState.past) := by
  refine ⟨rfl, ?_, ?_⟩
  · decide
  · decide


/-! ### Tree navigation (`handleNavigate`, C4, C5) -/

/-- Stable insertion into a y-sorted list (modelling the stable JS sort
with comparator `(a, b) => a.position.y - b.position.y`). -/
def insertByY (n : GNode) : List GNode → List GNode
  | [] => [n]
  | m :: ms => if n.position.y < m.position.y then n :: m :: ms
               else m :: insertByY n ms

/-- The stable ascending-by-`position.y` sort used on children lists. -/
def sortByY : List GNode → List GNode
  | [] => []
  | n :: ns => insertByY n (sortByY ns)

/-- `getSortedChildren(parentId)`: targets of the parent's outgoing
edges, resolved against the node list (`filter(Boolean)` drops
unresolvable targets), sorted by ascending `position.y`. -/
def getSortedChildren (nodes : List GNode) (edges : List GEdge)
    (parentId : String) : List GNode :=
  sortByY ((edges.filter (fun e => e.source = parentId)).filterMap
    (fun e => nodes.find? (fun n => n.id = e.target)))

/-- `Array.prototype.findIndex`, as an optional index. -/
def jsFindIndex (p : GNode → Bool) : List GNode → Option Nat
  | [] => none
  | n :: ns => if p n then some 0 else (jsFindIndex p ns).map (· + 1)

/-- Outcome of one iteration of the ancestor walker of the `next`
branch. -/
inductive NavStep where
  | found (target : String)
  | stop
  | up (parent : String)
deriving Repr, DecidableEq

/-- The body of the `while (walker)` loop: find the walker's first
incoming edge (none: root reached, break); within the parent's sorted
children, a next sibling yields the target, otherwise climb to the
parent. -/
def walkerStep (nodes : List GNode) (edges : List GEdge)
    (walker : String) : NavStep :=
  match edges.find? (fun e => e.target = walker) with
  | none => .stop
  | some incoming =>
    match jsFindIndex (fun n => n.id = walker)
        (getSortedChildren nodes edges incoming.source) with
    | some i =>
      match (getSortedChildren nodes edges incoming.source)[i + 1]? with
      | some nxt => .found nxt.id
      | none => .up incoming.source
    | none => .up incoming.source

/-- The walker loop with explicit fuel.  `none` = fuel exhausted (the
source loop is unbounded; C5 settles when that matters); `some t` = the
loop finished, `t` being the optional target (`some none` = no target,
so navigation is a no-op). -/
def walkNext (nodes : List GNode) (edges : List GEdge) :
    Nat → String → Option (Option String)
  | 0, _ => none
  | fuel + 1, walker =>
    if walker = "" then some none
    else
      match walkerStep nodes edges walker with
      | .found t => some (some t)
      | .stop => some none
      | .up p => walkNext nodes edges fuel p

inductive NavDir where
  | prev
  | next
deriving Repr, DecidableEq

/-- The target `handleNavigate(nodeId, direction)` computes (its state
effect is focusing and panning/expanding to that target).  `next`:
first sorted child, else the ancestor walker.  `prev`: previous sibling
when the node is not its parent's first sorted child (nor missing from
it), else the parent. -/
def navTarget (nodes : List GNode) (edges : List GEdge) (nodeId : String)
    (dir : NavDir) (fuel : Nat) : Option (Option String) :=
  match nodes.find? (fun n => n.id = nodeId) with
  | none => some none
  | some _ =>
    match dir with
    | .next =>
      match getSortedChildren nodes edges nodeId with
      | c :: _ => some (some c.id)
      | [] => walkNext nodes edges fuel nodeId
    | .prev =>
      match edges.find? (fun e => e.target = nodeId) with
      | none => some none
      | some incoming =>
        match jsFindIndex (fun n => n.id = nodeId)
            (getSortedChildren nodes edges incoming.source) with
        | some i =>
          if 0 < i then
            match (getSortedChildren nodes edges incoming.source)[i - 1]? with
            | some prv => some (some prv.id)
            | none => some (some incoming.source)
          else some (some incoming.source)
        | none => some (some incoming.source)

/-! ### C5: the walker can diverge on dangling cyclic edges -/

/-- A single real node `Z` whose incoming edge comes from `Q`, while
`Q` and `P` are ids that resolve to no node and form a directed edge
cycle between themselves. -/
def c5Nodes : List GNode := [{ id := "Z", ntype := "study", position := ⟨0, 0⟩ }]

def c5Edges : List GEdge :=
  [{ id := "eQZ", source := "Q", target := "Z" },
   { id := "ePQ", source := "P", target := "Q" },
   { id := "eQP", source := "Q", target := "P" }]

theorem c5_loop (n : Nat) :
    walkNext c5Nodes c5Edges n "Q" = none ∧
    walkNext c5Nodes c5Edges n "P" = none := by
  induction n with
  | zero => exact ⟨rfl, rfl⟩
  | succ k ih =>
    constructor
    · show walkNext c5Nodes c5Edges k "P" = none
      exact ih.2
    · show walkNext c5Nodes c5Edges k "Q" = none
      exact ih.1

/-- C5 counterexample: on this graph the ancestor walker of
`navigate("Z", 'next')` cycles between the dangling ids `Q` and `P`
forever — no amount of fuel makes it finish, so the source's unbounded
`while` loop never terminates.  (There is neither a fixed depth bound
nor a visited-set in the code.) -/
theorem navigate_diverges_counterexample :
    ¬ ∃ fuel : Nat, (navTarget c5Nodes c5Edges "Z" NavDir.next fuel).isSome = true := by
  rintro ⟨fuel, hs⟩
  have hred : navTarget c5Nodes c5Edges "Z" NavDir.next fuel =
      walkNext c5Nodes c5Edges fuel "Z" := rfl
  rw [hred] at hs
  cases fuel with
  | zero => exact Bool.noConfusion hs
  | succ k =>
    have hz : walkNext c5Nodes c5Edges (k + 1) "Z" =
        walkNext c5Nodes c5Edges k "Q" := rfl
    rw [hz, (c5_loop k).1] at hs
    exact Bool.noConfusion hs


/-! ### C5 (amended): the walker terminates when edge targets resolve -/

/-- One climb of the walker as a partial step: `some p` when the loop
continues with `walker = p`; `none` when this iteration finishes
(target found, root break, or falsy walker). -/
def stepUp? (nodes : List GNode) (edges : List GEdge) (w : String) :
    Option String :=
  if w = "" then none
  else
    match walkerStep nodes edges w with
    | .up p => some p
    | _ => none

/-- Iterated climbing. -/
def iterUp (nodes : List GNode) (edges : List GEdge) :
    Nat → String → Option String
  | 0, w => some w
  | n + 1, w =>
    match stepUp? nodes edges w with
    | some p => iterUp nodes edges n p
    | none => none

theorem walkNext_none_succ (nodes : List GNode) (edges : List GEdge)
    (fuel : Nat) (w : String)
    (h : walkNext nodes edges (fuel + 1) w = none) :
    ∃ p, stepUp? nodes edges w = some p ∧
      walkNext nodes edges fuel p = none := by
  by_cases hw : w = ""
  · rw [show walkNext nodes edges (fuel + 1) w = some none by
      simp only [walkNext, if_pos hw]] at h
    exact Option.noConfusion h
  · simp only [walkNext, if_neg hw] at h
    cases hstep : walkerStep nodes edges w <;> rw [hstep] at h
    · exact Option.noConfusion h
    · exact Option.noConfusion h
    · refine ⟨_, ?_, h⟩
      unfold stepUp?
      rw [if_neg hw, hstep]

theorem iterUp_of_walkNext_none (nodes : List GNode) (edges : List GEdge) :
    ∀ (fuel : Nat) (w : String), walkNext nodes edges fuel w = none →
    ∀ k, k ≤ fuel → (iterUp nodes edges k w).isSome = true := by
  intro fuel
  induction fuel with
  | zero =>
    intro w _ k hk
    have : k = 0 := Nat.le_zero.mp hk
    subst this
    rfl
  | succ f ih =>
    intro w h k hk
    obtain ⟨p, hsp, hnone⟩ := walkNext_none_succ nodes edges f w h
    cases k with
    | zero => rfl
    | succ k' =>
      have hred : iterUp nodes edges (k' + 1) w = iterUp nodes edges k' p := by
        show (match stepUp? nodes edges w with
              | some q => iterUp nodes edges k' q
              | none => none) = _
        rw [hsp]
      rw [hred]
      exact ih p hnone k' (Nat.le_of_succ_le_succ hk)

theorem iterUp_succ (nodes : List GNode) (edges : List GEdge)
    (n : Nat) (w : String) :
    iterUp nodes edges (n + 1) w =
      (iterUp nodes edges n w).bind (stepUp? nodes edges) := by
  induction n generalizing w with
  | zero =>
    show (match stepUp? nodes edges w with
          | some p => iterUp nodes edges 0 p
          | none => none) = stepUp? nodes edges w
    cases h : stepUp? nodes edges w
    · rfl
    · rfl
  | succ n ih =>
    show (match stepUp? nodes edges w with
          | some p => iterUp nodes edges (n + 1) p
          | none => none) =
        ((match stepUp? nodes edges w with
          | some p => iterUp nodes edges n p
          | none => none).bind (stepUp? nodes edges))
    cases h : stepUp? nodes edges w
    · rfl
    · exact ih _

theorem jsFindIndex_some_spec (p : GNode → Bool) :
    ∀ (l : List GNode) (i : Nat), jsFindIndex p l = some i →
      ∃ h : i < l.length, p (l.get ⟨i, h⟩) = true := by
  intro l
  induction l with
  | nil => intro i h; exact Option.noConfusion h
  | cons n ns ih =>
    intro i h
    by_cases hp : p n
    · simp only [jsFindIndex, if_pos hp] at h
      injection h with h'
      subst h'
      exact ⟨Nat.succ_pos _, hp⟩
    · simp only [jsFindIndex, if_neg hp] at h
      cases hj : jsFindIndex p ns with
      | none => rw [hj] at h; exact Option.noConfusion h
      | some j =>
        rw [hj] at h
        injection h with h'
        subst h'
        obtain ⟨hlt, hpj⟩ := ih j hj
        exact ⟨Nat.succ_lt_succ hlt, hpj⟩

theorem jsFindIndex_isSome (p : GNode → Bool) :
    ∀ (l : List GNode), (∃ x ∈ l, p x = true) →
      (jsFindIndex p l).isSome = true := by
  intro l
  induction l with
  | nil => rintro ⟨x, hx, _⟩; exact absurd hx (List.not_mem_nil x)
  | cons n ns ih =>
    rintro ⟨x, hx, hpx⟩
    by_cases hp : p n
    · simp only [jsFindIndex, if_pos hp]
      rfl
    · simp only [jsFindIndex, if_neg hp]
      rcases List.mem_cons.mp hx with hx' | hx'
      · subst hx'
        exact absurd hpx (by simpa using hp)
      · have := ih ⟨x, hx', hpx⟩
        cases hj : jsFindIndex p ns with
        | none => rw [hj] at this; exact Bool.noConfusion this
        | some j => rfl

theorem insertByY_perm (n : GNode) (l : List GNode) :
    (insertByY n l).Perm (n :: l) := by
  induction l with
  | nil => exact List.Perm.refl _
  | cons m ms ih =>
    show (if n.position.y < m.position.y then n :: m :: ms
          else m :: insertByY n ms).Perm _
    by_cases h : n.position.y < m.position.y
    · rw [if_pos h]
    · rw [if_neg h]
      exact (ih.cons m).trans (List.Perm.swap n m ms)

theorem sortByY_perm (l : List GNode) : (sortByY l).Perm l := by
  induction l with
  | nil => exact List.Perm.refl _
  | cons n ns ih =>
    show (insertByY n (sortByY ns)).Perm _
    exact (insertByY_perm n (sortByY ns)).trans (ih.cons n)

theorem stepUp_target (nodes : List GNode) (edges : List GEdge)
    (w p : String) (h : stepUp? nodes edges w = some p) :
    ∃ e ∈ edges, e.target = w := by
  have hne : ¬ w = "" := by
    intro hw
    unfold stepUp? at h
    rw [if_pos hw] at h
    exact Option.noConfusion h
  have hup : walkerStep nodes edges w = .up p := by
    unfold stepUp? at h
    rw [if_neg hne] at h
    cases hstep : walkerStep nodes edges w <;> rw [hstep] at h
    · exact Option.noConfusion h
    · exact Option.noConfusion h
    · injection h with h'
      rw [h']
  unfold walkerStep at hup
  cases hfind : edges.find? (fun e => e.target = w) with
  | none => rw [hfind] at hup; exact NavStep.noConfusion hup
  | some e =>
    have hpe := List.find?_some hfind
    exact ⟨e, List.mem_of_find?_eq_some hfind, of_decide_eq_true hpe⟩

theorem stepUp_lastChild (nodes : List GNode) (edges : List GEdge)
    (w p : String) (h : stepUp? nodes edges w = some p)
    (hw : w ∈ nodes.map (fun n => n.id)) :
    ∃ n, (getSortedChildren nodes edges p).getLast? = some n ∧ n.id = w := by
  have hne : ¬ w = "" := by
    intro hw'
    unfold stepUp? at h
    rw [if_pos hw'] at h
    exact Option.noConfusion h
  have hup : walkerStep nodes edges w = .up p := by
    unfold stepUp? at h
    rw [if_neg hne] at h
    cases hstep : walkerStep nodes edges w <;> rw [hstep] at h
    · exact Option.noConfusion h
    · exact Option.noConfusion h
    · injection h with h'
      rw [h']
  unfold walkerStep at hup
  cases hfind : edges.find? (fun e => e.target = w) with
  | none => rw [hfind] at hup; exact NavStep.noConfusion hup
  | some e =>
    rw [hfind] at hup
    have hup2 : (match jsFindIndex (fun n => n.id = w)
        (getSortedChildren nodes edges e.source) with
      | some i =>
        match (getSortedChildren nodes edges e.source)[i + 1]? with
        | some nxt => NavStep.found nxt.id
        | none => NavStep.up e.source
      | none => NavStep.up e.source) = NavStep.up p := hup
    have hmem_e : e ∈ edges := List.mem_of_find?_eq_some hfind
    have hpe := List.find?_some hfind
    have htarget : e.target = w := of_decide_eq_true hpe
    have hfw : (nodes.find? (fun n => n.id = w)).isSome = true := by
      rw [List.find?_isSome]
      obtain ⟨n, hn, hid⟩ := List.mem_map.mp hw
      exact ⟨n, hn, decide_eq_true hid⟩
    obtain ⟨nv, hnv⟩ := Option.isSome_iff_exists.mp hfw
    have hpn := List.find?_some hnv
    have hnvid : nv.id = w := of_decide_eq_true hpn
    have hsib : nv ∈ getSortedChildren nodes edges e.source := by
      unfold getSortedChildren
      rw [(sortByY_perm _).mem_iff, List.mem_filterMap]
      refine ⟨e, ?_, ?_⟩
      · rw [List.mem_filter]
        exact ⟨hmem_e, decide_eq_true rfl⟩
      · rw [htarget]
        exact hnv
    have hidx : (jsFindIndex (fun n => n.id = w)
        (getSortedChildren nodes edges e.source)).isSome = true :=
      jsFindIndex_isSome _ _ ⟨nv, hsib, decide_eq_true hnvid⟩
    cases hj : jsFindIndex (fun n => n.id = w)
        (getSortedChildren nodes edges e.source) with
    | none => rw [hj] at hidx; exact Bool.noConfusion hidx
    | some i =>
      rw [hj] at hup2
      have hup3 : (match (getSortedChildren nodes edges e.source)[i + 1]? with
        | some nxt => NavStep.found nxt.id
        | none => NavStep.up e.source) = NavStep.up p := hup2
      cases hget : (getSortedChildren nodes edges e.source)[i + 1]? with
      | some nxt => rw [hget] at hup3; exact NavStep.noConfusion hup3
      | none =>
        rw [hget] at hup3
        injection hup3 with hsrc
        obtain ⟨hlt, hpw⟩ := jsFindIndex_some_spec _ _ _ hj
        have hlen : (getSortedChildren nodes edges e.source).length ≤ i + 1 := by
          by_contra hcon
          push_neg at hcon
          rw [List.getElem?_eq_getElem hcon] at hget
          exact Option.noConfusion hget
        refine ⟨(getSortedChildren nodes edges e.source).get ⟨i, hlt⟩, ?_,
          of_decide_eq_true hpw⟩
        rw [← hsrc, List.getLast?_eq_getElem?]
        have hieq : (getSortedChildren nodes edges e.source).length - 1 = i := by
          omega
        rw [hieq, List.getElem?_eq_getElem hlt]
        rfl

theorem stepUp_inj (nodes : List GNode) (edges : List GEdge)
    (x y q : String)
    (hx : stepUp? nodes edges x = some q) (hy : stepUp? nodes edges y = some q)
    (hmx : x ∈ nodes.map (fun n => n.id)) (hmy : y ∈ nodes.map (fun n => n.id)) :
    x = y := by
  obtain ⟨n1, hl1, hid1⟩ := stepUp_lastChild nodes edges x q hx hmx
  obtain ⟨n2, hl2, hid2⟩ := stepUp_lastChild nodes edges y q hy hmy
  rw [hl1] at hl2
  injection hl2 with hnn
  rw [← hid1, ← hid2, hnn]

theorem walkNext_total (nodes : List GNode) (edges : List GEdge)
    (htargets : ∀ e ∈ edges, ∃ n ∈ nodes, e.target = n.id)
    (w0 : String) (hchild : getSortedChildren nodes edges w0 = []) :
    (walkNext nodes edges (nodes.length + 2) w0).isSome = true := by
  by_contra hns
  have hnone : walkNext nodes edges (nodes.length + 2) w0 = none := by
    cases h : walkNext nodes edges (nodes.length + 2) w0 with
    | none => rfl
    | some v => exact absurd (Option.isSome_iff_exists.mpr ⟨v, h⟩) hns
  have hiter := iterUp_of_walkNext_none nodes edges (nodes.length + 2) w0 hnone
  have hV : ∀ k, k ≤ nodes.length + 2 →
      ∃ v, iterUp nodes edges k w0 = some v := by
    intro k hk
    exact Option.isSome_iff_exists.mp (hiter k hk)
  have hstepV : ∀ k, k + 1 ≤ nodes.length + 2 →
      stepUp? nodes edges ((iterUp nodes edges k w0).getD "") =
        some ((iterUp nodes edges (k + 1) w0).getD "") := by
    intro k hk
    obtain ⟨vk, hvk⟩ := hV k (by omega)
    obtain ⟨vk1, hvk1⟩ := hV (k + 1) hk
    have hb : stepUp? nodes edges vk = some vk1 := by
      rw [iterUp_succ, hvk] at hvk1
      simpa using hvk1
    rw [hvk, hvk1]
    simpa using hb
  have hmemV : ∀ k, k + 1 ≤ nodes.length + 2 →
      ((iterUp nodes edges k w0).getD "") ∈ nodes.map (fun n => n.id) := by
    intro k hk
    obtain ⟨e, he, het⟩ := stepUp_target nodes edges _ _ (hstepV k hk)
    obtain ⟨n, hn, hid⟩ := htargets e he
    rw [List.mem_map]
    exact ⟨n, hn, by rw [← hid, het]⟩
  have hcard : (nodes.map (fun n => n.id)).toFinset.card <
      (Finset.univ : Finset (Fin (nodes.length + 2))).card := by
    have h1 := List.toFinset_card_le (nodes.map (fun n => n.id))
    rw [List.length_map] at h1
    rw [Finset.card_univ, Fintype.card_fin]
    omega
  obtain ⟨i, -, j, -, hij, hVij⟩ :=
    Finset.exists_ne_map_eq_of_card_lt_of_maps_to hcard
      (f := fun k : Fin (nodes.length + 2) =>
        (iterUp nodes edges k.val w0).getD "")
      (fun k _ => List.mem_toFinset.mpr (hmemV k.val (by omega)))
  obtain ⟨a, b, hab, hbN, hVab⟩ : ∃ a b : Nat, a < b ∧ b ≤ nodes.length + 1 ∧
      (iterUp nodes edges a w0).getD "" = (iterUp nodes edges b w0).getD "" := by
    rcases lt_or_gt_of_ne hij with hlt | hgt
    · exact ⟨i.val, j.val, hlt, by omega, hVij⟩
    · exact ⟨j.val, i.val, hgt, by omega, hVij.symm⟩
  have hback : ∀ d, d ≤ a →
      (iterUp nodes edges (a - d) w0).getD "" =
        (iterUp nodes edges (b - d) w0).getD "" := by
    intro d
    induction d with
    | zero => intro _; simpa using hVab
    | succ d' ihd =>
      intro hda
      have hd' := ihd (by omega)
      have ha1 : a - (d' + 1) + 1 = a - d' := by omega
      have hb1 : b - (d' + 1) + 1 = b - d' := by omega
      have hs1 := hstepV (a - (d' + 1)) (by omega)
      have hs2 := hstepV (b - (d' + 1)) (by omega)
      rw [ha1] at hs1
      rw [hb1] at hs2
      rw [hd'] at hs1
      exact stepUp_inj nodes edges _ _ _ hs1 hs2
        (hmemV _ (by omega)) (hmemV _ (by omega))
  have h00 : (iterUp nodes edges 0 w0).getD "" = w0 := rfl
  have hreturn : (iterUp nodes edges (b - a) w0).getD "" = w0 := by
    have := hback a le_rfl
    simp only [Nat.sub_self] at this
    rw [← this, h00]
  have hstep0 := hstepV (b - a - 1) (by omega)
  have heq : b - a - 1 + 1 = b - a := by omega
  rw [heq, hreturn] at hstep0
  obtain ⟨n, hlast, -⟩ := stepUp_lastChild nodes edges _ _ hstep0
    (hmemV _ (by omega))
  rw [hchild] at hlast
  exact Option.noConfusion hlast

/-- C5 (amended).  For every graph all of whose edge targets resolve to
existing nodes — in particular every graph the app itself can produce,
including manually wired directed cycles — `navigate(nodeId, direction)`
terminates for every starting id and both directions: fuel
`nodes.length + 2` always suffices for the ancestor walker.  (The code
has neither a fixed depth bound nor a visited-set; termination follows
from the last-child structure of the walk, and fails for edge lists
whose targets do not resolve — see the counterexample.) -/
theorem navigate_terminates (nodes : List GNode) (edges : List GEdge)
    (htargets : ∀ e ∈ edges, ∃ n ∈ nodes, e.target = n.id)
    (nodeId : String) (dir : NavDir) :
    (navTarget nodes edges nodeId dir (nodes.length + 2)).isSome = true := by
  unfold navTarget
  cases hfind : nodes.find? (fun n => n.id = nodeId) with
  | none => rfl
  | some cur =>
    cases dir with
    | next =>
      cases hch : getSortedChildren nodes edges nodeId with
      | cons c cs => rfl
      | nil => exact walkNext_total nodes edges htargets nodeId hch
    | prev =>
      show (match edges.find? (fun e : GEdge => e.target = nodeId) with
            | none => (some none : Option (Option String))
            | some incoming =>
              match jsFindIndex (fun n : GNode => n.id = nodeId)
                  (getSortedChildren nodes edges incoming.source) with
              | some i =>
                if 0 < i then
                  match (getSortedChildren nodes edges incoming.source)[i - 1]? with
                  | some prv => some (some prv.id)
                  | none => some (some incoming.source)
                else some (some incoming.source)
              | none => some (some incoming.source)).isSome = true
      cases hinc : edges.find? (fun e => e.target = nodeId) with
      | none => rfl
      | some incoming =>
        show (match jsFindIndex (fun n : GNode => n.id = nodeId)
                  (getSortedChildren nodes edges incoming.source) with
              | some i =>
                if 0 < i then
                  match (getSortedChildren nodes edges incoming.source)[i - 1]? with
                  | some prv => (some (some prv.id) : Option (Option String))
                  | none => some (some incoming.source)
                else some (some incoming.source)
              | none => some (some incoming.source)).isSome = true
        cases hidx : jsFindIndex (fun n => n.id = nodeId)
            (getSortedChildren nodes edges incoming.source) with
        | none => rfl
        | some i =>
          show ((if 0 < i then
                  match (getSortedChildren nodes edges incoming.source)[i - 1]? with
                  | some prv => (some (some prv.id) : Option (Option String))
                  | none => some (some incoming.source)
                else some (some incoming.source))).isSome = true
          by_cases hi : 0 < i
          · rw [if_pos hi]
            cases hget : (getSortedChildren nodes edges incoming.source)[i - 1]? <;>
              rfl
          · rw [if_neg hi]
            rfl

/-- Witness for C5 (amended) on a concrete user-wired two-node directed
cycle: navigation still terminates in both directions. -/
theorem navigate_terminates_witness :
    (navTarget
      [{ id := "A", ntype := "study", position := ⟨0, 0⟩ },
       { id := "B", ntype := "quiz", position := ⟨0, 600⟩ }]
      [{ id := "eAB", source := "A", target := "B" },
       { id := "eBA", source := "B", target := "A" }]
      "A" NavDir.next 4).isSome = true ∧
    (navTarget
      [{ id := "A", ntype := "study", position := ⟨0, 0⟩ },
       { id := "B", ntype := "quiz", position := ⟨0, 600⟩ }]
      [{ id := "eAB", source := "A", target := "B" },
       { id := "eBA", source := "B", target := "A" }]
      "B" NavDir.prev 4).isSome = true := by
  constructor
  · exact navigate_terminates _ _ (by decide) "A" NavDir.next
  · exact navigate_terminates _ _ (by decide) "B" NavDir.prev


/-! ### C4: rose trees and their canvas graphs -/

/-- A finite rooted ordered tree of node ids: the shape "edges form a
tree rooted at the start node" that C4 quantifies over. -/
inductive RTree where
  | mk (rootId : String) (childTrees : List RTree)

def RTree.rootId : RTree → String
  | .mk i _ => i

def RTree.childTrees : RTree → List RTree
  | .mk _ cs => cs

mutual
/-- Depth-first pre-order of the tree's ids. -/
def preorder : RTree → List String
  | .mk i cs => i :: preorderF cs

def preorderF : List RTree → List String
  | [] => []
  | c :: cs => preorder c ++ preorderF cs
end

mutual
/-- `yOkB y t`: within every node of `t`, the children's `y`-coordinates
are strictly ascending in child order — the claim's "children ordered by
strictly ascending position.y". -/
def yOkB (y : String → Int) : RTree → Bool
  | .mk _ cs => chainAscB y cs && yOkF y cs

def chainAscB (y : String → Int) : List RTree → Bool
  | [] => true
  | [_] => true
  | a :: b :: rest => decide (y a.rootId < y b.rootId) &&
      chainAscB y (b :: rest)

def yOkF (y : String → Int) : List RTree → Bool
  | [] => true
  | c :: cs => yOkB y c && yOkF y cs
end

/-- The canvas node a tree id denotes (`x` is irrelevant to
navigation). -/
def nodeOfId (y : String → Int) (i : String) : GNode :=
  { id := i, ntype := "study", position := ⟨0, y i⟩ }

/-- The canvas node list of a tree. -/
def graphNodes (y : String → Int) (t : RTree) : List GNode :=
  (preorder t).map (nodeOfId y)

/-- The edges from a parent id to the roots of its child trees, in child
order. -/
def childEdges (p : String) (cs : List RTree) : List GEdge :=
  cs.map (fun c =>
    { id := "e-" ++ p ++ "-" ++ c.rootId, source := p, target := c.rootId })

mutual
/-- All parent→child edges of the tree, parent-first depth-first. -/
def treeEdges : RTree → List GEdge
  | .mk i cs => childEdges i cs ++ treeEdgesF cs

def treeEdgesF : List RTree → List GEdge
  | [] => []
  | c :: cs => treeEdges c ++ treeEdgesF cs
end

mutual
/-- `Occurs s t`: the tree `s` appears as a subtree of `t` (including
`t` itself). -/
def Occurs (s : RTree) : RTree → Prop
  | .mk i cs => RTree.mk i cs = s ∨ OccursF s cs

def OccursF (s : RTree) : List RTree → Prop
  | [] => False
  | c :: cs => Occurs s c ∨ OccursF s cs
end

theorem occurs_self (s : RTree) : Occurs s s := by
  cases s with
  | mk i cs => exact Or.inl rfl

theorem occursF_of_mem {s c : RTree} {cs : List RTree}
    (hc : c ∈ cs) (h : Occurs s c) : OccursF s cs := by
  induction cs with
  | nil => exact absurd hc (List.not_mem_nil c)
  | cons d ds ih =>
    rcases List.mem_cons.mp hc with hd | hd
    · subst hd
      exact Or.inl h
    · exact Or.inr (ih hd)

mutual
theorem occurs_trans (a b : RTree) : ∀ (t : RTree),
    Occurs a b → Occurs b t → Occurs a t
  | .mk i cs, hab, hbt => by
    rcases hbt with heq | hF
    · rw [← heq] at hab
      rcases hab with heq2 | hF2
      · exact Or.inl heq2
      · exact Or.inr hF2
    · exact Or.inr (occursF_trans a b cs hab hF)

theorem occursF_trans (a b : RTree) : ∀ (cs : List RTree),
    Occurs a b → OccursF b cs → OccursF a cs
  | [], _, hF => hF.elim
  | c :: cs, hab, hF => by
    rcases hF with hc | hcs
    · exact Or.inl (occurs_trans a b c hab hc)
    · exact Or.inr (occursF_trans a b cs hab hcs)
end

mutual
theorem occurs_rootId_mem (s : RTree) : ∀ (t : RTree),
    Occurs s t → s.rootId ∈ preorder t
  | .mk i cs, h => by
    rcases h with heq | hF
    · rw [← heq]
      exact List.mem_cons_self i (preorderF cs)
    · exact List.mem_cons_of_mem i (occursF_rootId_mem s cs hF)

theorem occursF_rootId_mem (s : RTree) : ∀ (cs : List RTree),
    OccursF s cs → s.rootId ∈ preorderF cs
  | [], h => h.elim
  | c :: cs, h => by
    rcases h with hc | hcs
    · exact List.mem_append_left _ (occurs_rootId_mem s c hc)
    · exact List.mem_append_right _ (occursF_rootId_mem s cs hcs)
end

mutual
theorem occurs_preorder_subset (s : RTree) : ∀ (t : RTree),
    Occurs s t → ∀ x ∈ preorder s, x ∈ preorder t
  | .mk i cs, h, x, hx => by
    rcases h with heq | hF
    · rw [heq]
      exact hx
    · exact List.mem_cons_of_mem i (occursF_preorder_subset s cs hF x hx)

theorem occursF_preorder_subset (s : RTree) : ∀ (cs : List RTree),
    OccursF s cs → ∀ x ∈ preorder s, x ∈ preorderF cs
  | [], h, _, _ => h.elim
  | c :: cs, h, x, hx => by
    rcases h with hc | hcs
    · exact List.mem_append_left _ (occurs_preorder_subset s c hc x hx)
    · exact List.mem_append_right _ (occursF_preorder_subset s cs hcs x hx)
end

/-- The members of the child list of an occurrence occur themselves. -/
theorem occurs_child {p : String} {cs : List RTree} {t : RTree}
    (h : Occurs (.mk p cs) t) {c : RTree} (hc : c ∈ cs) : Occurs c t :=
  occurs_trans c (.mk p cs) t (Or.inr (occursF_of_mem hc (occurs_self c))) h


theorem preorder_def (i : String) (cs : List RTree) :
    preorder (.mk i cs) = i :: preorderF cs := by
  rw [preorder]

theorem preorderF_def (c : RTree) (cs : List RTree) :
    preorderF (c :: cs) = preorder c ++ preorderF cs := by
  rw [preorderF]

theorem preorder_ne_nil (s : RTree) : preorder s ≠ [] := by
  cases s with
  | mk i cs =>
    rw [preorder_def]
    exact List.cons_ne_nil i (preorderF cs)

theorem rootId_mem_preorder (s : RTree) : s.rootId ∈ preorder s := by
  cases s with
  | mk i cs =>
    rw [preorder_def]
    exact List.mem_cons_self i (preorderF cs)

theorem mem_preorderF_of_mem_preorder {x : String} {c : RTree}
    {cs : List RTree} (hc : c ∈ cs) (hx : x ∈ preorder c) :
    x ∈ preorderF cs := by
  induction cs with
  | nil => exact absurd hc (List.not_mem_nil c)
  | cons d ds ih =>
    rw [preorderF_def]
    rcases List.mem_cons.mp hc with hd | hd
    · subst hd
      exact List.mem_append_left _ hx
    · exact List.mem_append_right _ (ih hd)

theorem rootId_mem_preorderF {c : RTree} {cs : List RTree} (hc : c ∈ cs) :
    c.rootId ∈ preorderF cs :=
  mem_preorderF_of_mem_preorder hc (rootId_mem_preorder c)

theorem preorderF_mem_tail {x : String} {c : RTree} (hx : x ∈ preorderF c.childTrees) :
    x ∈ preorder c := by
  cases c with
  | mk i cs =>
    rw [preorder_def]
    exact List.mem_cons_of_mem i hx

/-- Nodup decompositions along the tree structure. -/
theorem nodup_root (i : String) (cs : List RTree)
    (h : (preorder (.mk i cs)).Nodup) :
    i ∉ preorderF cs ∧ (preorderF cs).Nodup := by
  rw [preorder_def] at h
  exact List.nodup_cons.mp h

theorem nodupF_cons (c : RTree) (cs : List RTree)
    (h : (preorderF (c :: cs)).Nodup) :
    (preorder c).Nodup ∧ (preorderF cs).Nodup ∧
      (preorder c).Disjoint (preorderF cs) := by
  rw [preorderF_def] at h
  exact List.nodup_append.mp h

theorem nodup_of_memF {c : RTree} {cs : List RTree}
    (h : (preorderF cs).Nodup) (hc : c ∈ cs) : (preorder c).Nodup := by
  induction cs with
  | nil => exact absurd hc (List.not_mem_nil c)
  | cons d ds ih =>
    obtain ⟨h1, h2, _⟩ := nodupF_cons d ds h
    rcases List.mem_cons.mp hc with hd | hd
    · subst hd
      exact h1
    · exact ih h2 hd

theorem rootIds_nodup {cs : List RTree} (h : (preorderF cs).Nodup) :
    (cs.map RTree.rootId).Nodup := by
  induction cs with
  | nil => exact List.nodup_nil
  | cons c ds ih =>
    obtain ⟨h1, h2, h3⟩ := nodupF_cons c ds h
    rw [List.map_cons, List.nodup_cons]
    refine ⟨?_, ih h2⟩
    intro hmem
    rw [List.mem_map] at hmem
    obtain ⟨d, hd, hdid⟩ := hmem
    exact h3 (rootId_mem_preorder c) (hdid ▸ rootId_mem_preorderF hd)

mutual
theorem nodup_of_occurs (s : RTree) : ∀ (t : RTree),
    (preorder t).Nodup → Occurs s t → (preorder s).Nodup
  | .mk i cs, hnd, hocc => by
    rcases hocc with heq | hF
    · rw [← heq]
      exact hnd
    · exact nodup_of_occursF s cs (nodup_root i cs hnd).2 hF

theorem nodup_of_occursF (s : RTree) : ∀ (cs : List RTree),
    (preorderF cs).Nodup → OccursF s cs → (preorder s).Nodup
  | [], _, hF => hF.elim
  | c :: cs, hnd, hF => by
    obtain ⟨h1, h2, _⟩ := nodupF_cons c cs hnd
    rcases hF with hc | hcs
    · exact nodup_of_occurs s c h1 hc
    · exact nodup_of_occursF s cs h2 hcs
end

mutual
/-- A child's root of an occurrence sits strictly below the host's
root: it belongs to the flattened child forest of the host. -/
theorem child_root_mem_tail (p : String) (cs : List RTree) (c : RTree)
    (hc : c ∈ cs) : ∀ (t : RTree), Occurs (.mk p cs) t →
      c.rootId ∈ preorderF t.childTrees
  | .mk i ds, hocc => by
    rcases hocc with heq | hF
    · injection heq with h1 h2
      subst h2
      exact rootId_mem_preorderF hc
    · exact child_root_mem_tailF p cs c hc ds hF

theorem child_root_mem_tailF (p : String) (cs : List RTree) (c : RTree)
    (hc : c ∈ cs) : ∀ (ds : List RTree), OccursF (.mk p cs) ds →
      c.rootId ∈ preorderF ds
  | [], hF => hF.elim
  | d :: ds, hF => by
    rw [preorderF_def]
    rcases hF with hd | hds
    · exact List.mem_append_left _
        (preorderF_mem_tail (child_root_mem_tail p cs c hc d hd))
    · exact List.mem_append_right _ (child_root_mem_tailF p cs c hc ds hds)
end

/-! Graph-side basic lemmas -/

theorem find_node_of_mem (y : String → Int) (l : List String) (x : String)
    (hx : x ∈ l) :
    (l.map (nodeOfId y)).find? (fun n => n.id = x) = some (nodeOfId y x) := by
  induction l with
  | nil => exact absurd hx (List.not_mem_nil x)
  | cons a as ih =>
    rw [List.map_cons]
    by_cases hax : a = x
    · subst hax
      rw [List.find?_cons_of_pos]
      exact decide_eq_true rfl
    · rw [List.find?_cons_of_neg]
      · rcases List.mem_cons.mp hx with h | h
        · exact absurd h.symm hax
        · exact ih h
      · simp only [nodeOfId, decide_eq_true_eq]
        exact hax

theorem graphNodes_find (y : String → Int) (t : RTree) (x : String)
    (hx : x ∈ preorder t) :
    (graphNodes y t).find? (fun n => n.id = x) = some (nodeOfId y x) :=
  find_node_of_mem y (preorder t) x hx

/-- Edge sources live in the tree. -/
theorem childEdges_source {p : String} {cs : List RTree} {e : GEdge}
    (he : e ∈ childEdges p cs) : e.source = p := by
  unfold childEdges at he
  rw [List.mem_map] at he
  obtain ⟨c, _, hc⟩ := he
  rw [← hc]

theorem childEdges_target {p : String} {cs : List RTree} {e : GEdge}
    (he : e ∈ childEdges p cs) : ∃ c ∈ cs, e.target = c.rootId := by
  unfold childEdges at he
  rw [List.mem_map] at he
  obtain ⟨c, hcm, hc⟩ := he
  exact ⟨c, hcm, by rw [← hc]⟩

mutual
theorem treeEdges_source_mem : ∀ (t : RTree), ∀ e ∈ treeEdges t,
    e.source ∈ preorder t
  | .mk i cs, e, he => by
    rw [treeEdges] at he
    rw [preorder_def]
    rcases List.mem_append.mp he with h | h
    · rw [childEdges_source h]
      exact List.mem_cons_self i (preorderF cs)
    · exact List.mem_cons_of_mem i (treeEdgesF_source_mem cs e h)

theorem treeEdgesF_source_mem : ∀ (cs : List RTree), ∀ e ∈ treeEdgesF cs,
    e.source ∈ preorderF cs
  | c :: cs, e, he => by
    rw [treeEdgesF] at he
    rw [preorderF_def]
    rcases List.mem_append.mp he with h | h
    · exact List.mem_append_left _ (treeEdges_source_mem c e h)
    · exact List.mem_append_right _ (treeEdgesF_source_mem cs e h)
end

mutual
theorem treeEdges_target_mem : ∀ (t : RTree), ∀ e ∈ treeEdges t,
    e.target ∈ preorderF t.childTrees
  | .mk i cs, e, he => by
    rw [treeEdges] at he
    show e.target ∈ preorderF cs
    rcases List.mem_append.mp he with h | h
    · obtain ⟨c, hcm, hct⟩ := childEdges_target h
      rw [hct]
      exact rootId_mem_preorderF hcm
    · exact treeEdgesF_target_mem cs e h

theorem treeEdgesF_target_mem : ∀ (cs : List RTree), ∀ e ∈ treeEdgesF cs,
    e.target ∈ preorderF cs
  | c :: cs, e, he => by
    rw [treeEdgesF] at he
    rw [preorderF_def]
    rcases List.mem_append.mp he with h | h
    · exact List.mem_append_left _
        (preorderF_mem_tail (treeEdges_target_mem c e h))
    · exact List.mem_append_right _ (treeEdgesF_target_mem cs e h)
end

/-- The root has no incoming edge. -/
theorem root_incoming_none (t : RTree) (hnd : (preorder t).Nodup) :
    (treeEdges t).find? (fun e => e.target = t.rootId) = none := by
  rw [List.find?_eq_none]
  intro e he
  rw [decide_eq_true_eq]
  intro htgt
  cases t with
  | mk i cs =>
    have hmem := treeEdges_target_mem (.mk i cs) e he
    rw [htgt] at hmem
    exact (nodup_root i cs hnd).1 hmem


theorem childEdges_filter_self (p : String) (cs : List RTree) :
    (childEdges p cs).filter (fun e => e.source = p) = childEdges p cs := by
  apply List.filter_eq_self.mpr
  intro e he
  rw [decide_eq_true_eq]
  exact childEdges_source he

theorem childEdges_filter_ne {p q : String} (cs : List RTree) (hpq : q ≠ p) :
    (childEdges q cs).filter (fun e => e.source = p) = [] := by
  apply List.filter_eq_nil.mpr
  intro e he
  rw [decide_eq_true_eq]
  rw [childEdges_source he]
  exact hpq

mutual
/-- In a duplicate-free tree, the edges out of `p` are exactly the
child edges of `p`'s (unique) occurrence. -/
theorem treeEdges_filter_source (p : String) (cs : List RTree) :
    ∀ (t : RTree), (preorder t).Nodup → Occurs (.mk p cs) t →
      (treeEdges t).filter (fun e => e.source = p) = childEdges p cs
  | .mk i ds, hnd, hocc => by
    rw [treeEdges, List.filter_append]
    obtain ⟨hroot, hndF⟩ := nodup_root i ds hnd
    rcases hocc with heq | hF
    · injection heq with h1 h2
      subst h1
      subst h2
      rw [childEdges_filter_self]
      have hnil : (treeEdgesF ds).filter (fun e => e.source = i) = [] := by
        apply List.filter_eq_nil.mpr
        intro e he
        rw [decide_eq_true_eq]
        intro hsrc
        exact hroot (hsrc ▸ treeEdgesF_source_mem ds e he)
      rw [hnil, List.append_nil]
    · have hip : i ≠ p := by
        intro hip
        exact hroot (hip ▸ occursF_rootId_mem (.mk p cs) ds hF)
      rw [childEdges_filter_ne ds hip, List.nil_append]
      exact treeEdgesF_filter_source p cs ds hndF hF

theorem treeEdgesF_filter_source (p : String) (cs : List RTree) :
    ∀ (ds : List RTree), (preorderF ds).Nodup → OccursF (.mk p cs) ds →
      (treeEdgesF ds).filter (fun e => e.source = p) = childEdges p cs
  | d :: ds, hnd, hF => by
    rw [treeEdgesF, List.filter_append]
    obtain ⟨h1, h2, h3⟩ := nodupF_cons d ds hnd
    rcases hF with hd | hds
    · rw [treeEdges_filter_source p cs d h1 hd]
      have hp : p ∈ preorder d :=
        occurs_rootId_mem (.mk p cs) d hd
      have hnil : (treeEdgesF ds).filter (fun e => e.source = p) = [] := by
        apply List.filter_eq_nil.mpr
        intro e he
        rw [decide_eq_true_eq]
        intro hsrc
        exact h3 hp (hsrc ▸ treeEdgesF_source_mem ds e he)
      rw [hnil, List.append_nil]
    · have hp : p ∈ preorderF ds :=
        occursF_rootId_mem (.mk p cs) ds hds
      have hnil : (treeEdges d).filter (fun e => e.source = p) = [] := by
        apply List.filter_eq_nil.mpr
        intro e he
        rw [decide_eq_true_eq]
        intro hsrc
        exact h3 (hsrc ▸ treeEdges_source_mem d e he) hp
      rw [hnil, List.nil_append]
      exact treeEdgesF_filter_source p cs ds h2 hds
end

theorem childEdges_find_target (p x : String) (cs : List RTree)
    (hx : ∃ c ∈ cs, c.rootId = x) :
    (childEdges p cs).find? (fun e => e.target = x) =
      some { id := "e-" ++ p ++ "-" ++ x, source := p, target := x } := by
  induction cs with
  | nil =>
    obtain ⟨c, hc, _⟩ := hx
    exact absurd hc (List.not_mem_nil c)
  | cons c ds ih =>
    show List.find? _ (_ :: childEdges p ds) = _
    by_cases hcx : c.rootId = x
    · rw [List.find?_cons_of_pos]
      · simp only [hcx]
      · simp only [decide_eq_true_eq]
        exact hcx
    · rw [List.find?_cons_of_neg]
      · apply ih
        obtain ⟨c', hc', hcx'⟩ := hx
        rcases List.mem_cons.mp hc' with h | h
        · exact absurd (h ▸ hcx') hcx
        · exact ⟨c', h, hcx'⟩
      · simp only [decide_eq_true_eq]
        exact hcx

theorem root_not_mem_tail (d : RTree) (h : (preorder d).Nodup) :
    d.rootId ∉ preorderF d.childTrees := by
  cases d with
  | mk i cs => exact (nodup_root i cs h).1

/-- No root of the forest `ds` equals the root of a child `c ∈ cs` of an
occurrence of `.mk p cs` inside `ds` (the child sits strictly deeper). -/
theorem child_root_ne_roots (p : String) (cs : List RTree) (c : RTree)
    (hc : c ∈ cs) :
    ∀ (ds : List RTree), (preorderF ds).Nodup → OccursF (.mk p cs) ds →
      ∀ d ∈ ds, d.rootId ≠ c.rootId := by
  intro ds
  induction ds with
  | nil => intro _ hF; exact hF.elim
  | cons d' ds' ih =>
    intro hnd hF d hd
    obtain ⟨h1, h2, h3⟩ := nodupF_cons d' ds' hnd
    rcases hF with hocc | hFr
    · have hcmem : c.rootId ∈ preorderF d'.childTrees :=
        child_root_mem_tail p cs c hc d' hocc
      rcases List.mem_cons.mp hd with hdd | hdd
      · subst hdd
        intro hcon
        exact root_not_mem_tail d h1 (by rw [hcon]; exact hcmem)
      · intro hcon
        refine h3 (preorderF_mem_tail hcmem) ?_
        rw [← hcon]
        exact rootId_mem_preorderF hdd
    · have hcmem : c.rootId ∈ preorderF ds' := by
        have h0 : c.rootId ∈ preorder (.mk p cs) := by
          rw [preorder_def]
          exact List.mem_cons_of_mem p (rootId_mem_preorderF hc)
        exact occursF_preorder_subset (.mk p cs) ds' hFr c.rootId h0
      rcases List.mem_cons.mp hd with hdd | hdd
      · subst hdd
        intro hcon
        exact h3 (hcon ▸ rootId_mem_preorder d) hcmem
      · exact ih h2 hFr d hdd

mutual
/-- In a duplicate-free tree, the first (and only) incoming edge of a
child `c` of an occurrence `.mk p cs` is the edge `p → c.rootId`. -/
theorem treeEdges_find_target (p : String) (cs : List RTree) (c : RTree)
    (hc : c ∈ cs) :
    ∀ (t : RTree), (preorder t).Nodup → Occurs (.mk p cs) t →
      (treeEdges t).find? (fun e => e.target = c.rootId) =
        some { id := "e-" ++ p ++ "-" ++ c.rootId, source := p,
               target := c.rootId }
  | .mk i ds, hnd, hocc => by
    rw [treeEdges, List.find?_append]
    obtain ⟨hroot, hndF⟩ := nodup_root i ds hnd
    rcases hocc with heq | hF
    · injection heq with h1 h2
      subst h1
      subst h2
      rw [childEdges_find_target i c.rootId ds ⟨c, hc, rfl⟩]
      rfl
    · have hnone : (childEdges i ds).find? (fun e => e.target = c.rootId)
          = none := by
        rw [List.find?_eq_none]
        intro e he
        rw [decide_eq_true_eq]
        obtain ⟨d, hdm, hdt⟩ := childEdges_target he
        rw [hdt]
        exact child_root_ne_roots p cs c hc ds hndF hF d hdm
      rw [hnone]
      show (treeEdgesF ds).find? (fun e => e.target = c.rootId) = _
      exact treeEdgesF_find_target p cs c hc ds hndF hF

theorem treeEdgesF_find_target (p : String) (cs : List RTree) (c : RTree)
    (hc : c ∈ cs) :
    ∀ (ds : List RTree), (preorderF ds).Nodup → OccursF (.mk p cs) ds →
      (treeEdgesF ds).find? (fun e => e.target = c.rootId) =
        some { id := "e-" ++ p ++ "-" ++ c.rootId, source := p,
               target := c.rootId }
  | d :: ds, hnd, hF => by
    rw [treeEdgesF, List.find?_append]
    obtain ⟨h1, h2, h3⟩ := nodupF_cons d ds hnd
    rcases hF with hd | hds
    · rw [treeEdges_find_target p cs c hc d h1 hd]
      rfl
    · have hcmem : c.rootId ∈ preorderF ds := by
        have h0 : c.rootId ∈ preorder (.mk p cs) := by
          rw [preorder_def]
          exact List.mem_cons_of_mem p (rootId_mem_preorderF hc)
        exact occursF_preorder_subset (.mk p cs) ds hds c.rootId h0
      have hnone : (treeEdges d).find? (fun e => e.target = c.rootId)
          = none := by
        rw [List.find?_eq_none]
        intro e he
        rw [decide_eq_true_eq]
        intro hcon
        exact h3 (preorderF_mem_tail (hcon ▸ treeEdges_target_mem d e he))
          hcmem
      rw [hnone]
      show (treeEdgesF ds).find? (fun e => e.target = c.rootId) = _
      exact treeEdgesF_find_target p cs c hc ds h2 hds
end


/-! Sorted-children characterisation on tree graphs -/

theorem sortByY_of_chain (l : List GNode)
    (h : List.Chain' (fun a b => a.position.y < b.position.y) l) :
    sortByY l = l := by
  induction l with
  | nil => rfl
  | cons n ns ih =>
    show insertByY n (sortByY ns) = n :: ns
    rw [ih h.tail]
    cases ns with
    | nil => rfl
    | cons m ms =>
      show (if n.position.y < m.position.y then _ else _) = _
      rw [if_pos (List.chain'_cons.mp h).1]

mutual
theorem yOkB_of_occurs (y : String → Int) (s : RTree) : ∀ (t : RTree),
    yOkB y t = true → Occurs s t → yOkB y s = true
  | .mk i cs, hy, hocc => by
    rcases hocc with heq | hF
    · rw [← heq]
      exact hy
    · rw [yOkB, Bool.and_eq_true] at hy
      exact yOkF_of_occursF y s cs hy.2 hF

theorem yOkF_of_occursF (y : String → Int) (s : RTree) : ∀ (cs : List RTree),
    yOkF y cs = true → OccursF s cs → yOkB y s = true
  | c :: cs, hy, hF => by
    rw [yOkF, Bool.and_eq_true] at hy
    rcases hF with hc | hcs
    · exact yOkB_of_occurs y s c hy.1 hc
    · exact yOkF_of_occursF y s cs hy.2 hcs
end

theorem chainAsc_nodes (y : String → Int) (cs : List RTree)
    (h : chainAscB y cs = true) :
    List.Chain' (fun a b => a.position.y < b.position.y)
      (cs.map (fun c => nodeOfId y c.rootId)) := by
  induction cs with
  | nil => exact List.chain'_nil
  | cons a cs ih =>
    cases cs with
    | nil => simp [List.chain'_singleton]
    | cons b rest =>
      rw [chainAscB, Bool.and_eq_true] at h
      rw [List.map_cons, List.map_cons, List.chain'_cons]
      constructor
      · exact of_decide_eq_true h.1
      · have := ih h.2
        rw [List.map_cons] at this
        exact this

theorem filterMap_childEdges (y : String → Int) (t : RTree) (p : String)
    (cs : List RTree) (hmem : ∀ c ∈ cs, c.rootId ∈ preorder t) :
    (childEdges p cs).filterMap
      (fun e => (graphNodes y t).find? (fun n => n.id = e.target)) =
      cs.map (fun c => nodeOfId y c.rootId) := by
  induction cs with
  | nil => rfl
  | cons c cs ih =>
    have hstep : childEdges p (c :: cs) =
        { id := "e-" ++ p ++ "-" ++ c.rootId, source := p,
          target := c.rootId } :: childEdges p cs := rfl
    rw [hstep]
    simp only [List.filterMap_cons,
      graphNodes_find y t c.rootId (hmem c (List.mem_cons_self c cs))]
    rw [List.map_cons, ih (fun d hd => hmem d (List.mem_cons_of_mem c hd))]

/-- The children `handleNavigate` computes for an occurrence `.mk p cs`:
exactly the child roots, in child order. -/
theorem getSortedChildren_graph (y : String → Int) (t : RTree)
    (hnd : (preorder t).Nodup) (hy : yOkB y t = true)
    (p : String) (cs : List RTree) (hocc : Occurs (.mk p cs) t) :
    getSortedChildren (graphNodes y t) (treeEdges t) p =
      cs.map (fun c => nodeOfId y c.rootId) := by
  unfold getSortedChildren
  rw [treeEdges_filter_source p cs t hnd hocc]
  rw [filterMap_childEdges y t p cs
    (fun c hc => occurs_rootId_mem c t (occurs_child hocc hc))]
  apply sortByY_of_chain
  apply chainAsc_nodes
  have hys := yOkB_of_occurs y (.mk p cs) t hy hocc
  rw [yOkB, Bool.and_eq_true] at hys
  exact hys.1

theorem jsFindIndex_nodup_get (l : List GNode)
    (hnd : (l.map (fun n => n.id)).Nodup) :
    ∀ (i : Nat) (h : i < l.length),
      jsFindIndex (fun n => n.id = (l.get ⟨i, h⟩).id) l = some i := by
  induction l with
  | nil => intro i h; exact absurd h (Nat.not_lt_zero i)
  | cons a as ih =>
    rw [List.map_cons, List.nodup_cons] at hnd
    intro i h
    cases i with
    | zero =>
      show (if _ then some 0 else _) = some 0
      rw [if_pos]
      exact decide_eq_true rfl
    | succ j =>
      have hj : j < as.length := Nat.lt_of_succ_lt_succ h
      have hget : (a :: as).get ⟨j + 1, h⟩ = as.get ⟨j, hj⟩ := rfl
      show (if _ then some 0 else Option.map _ (jsFindIndex _ as)) = _
      rw [if_neg, hget, ih hnd.2 j hj]
      · rfl
      · rw [decide_eq_true_eq, hget]
        intro hcon
        exact hnd.1 (hcon ▸ List.mem_map_of_mem (fun n => n.id)
          (List.get_mem as j hj))

/-- The node ids of the children list are the child roots. -/
theorem childNodes_ids (y : String → Int) (cs : List RTree) :
    (cs.map (fun c => nodeOfId y c.rootId)).map (fun n => n.id) =
      cs.map RTree.rootId := by
  rw [List.map_map]
  rfl

theorem childNodes_get (y : String → Int) (cs : List RTree) (j : Nat)
    (hj : j < cs.length) :
    (cs.map (fun c => nodeOfId y c.rootId)).get
        ⟨j, by rw [List.length_map]; exact hj⟩ =
      nodeOfId y (cs.get ⟨j, hj⟩).rootId := by
  rw [List.get_map]


/-! Walker steps on tree graphs -/

theorem walkerStep_root (y : String → Int) (t : RTree)
    (hnd : (preorder t).Nodup) :
    walkerStep (graphNodes y t) (treeEdges t) t.rootId = .stop := by
  unfold walkerStep
  rw [root_incoming_none t hnd]

theorem walkerStep_child_core (y : String → Int) (t : RTree)
    (hnd : (preorder t).Nodup) (hy : yOkB y t = true)
    (p : String) (cs : List RTree) (hocc : Occurs (.mk p cs) t)
    (j : Nat) (hj : j < cs.length) :
    walkerStep (graphNodes y t) (treeEdges t) ((cs.get ⟨j, hj⟩).rootId) =
      (match (cs.map (fun c => nodeOfId y c.rootId))[j + 1]? with
       | some nxt => NavStep.found nxt.id
       | none => NavStep.up p) := by
  have hc : cs.get ⟨j, hj⟩ ∈ cs := List.get_mem cs j hj
  have hfind := treeEdges_find_target p cs (cs.get ⟨j, hj⟩) hc t hnd hocc
  unfold walkerStep
  rw [hfind]
  show (match jsFindIndex (fun n => n.id = (cs.get ⟨j, hj⟩).rootId)
      (getSortedChildren (graphNodes y t) (treeEdges t) p) with
    | some i =>
      match (getSortedChildren (graphNodes y t) (treeEdges t) p)[i + 1]? with
      | some nxt => NavStep.found nxt.id
      | none => NavStep.up p
    | none => NavStep.up p) = _
  rw [getSortedChildren_graph y t hnd hy p cs hocc]
  have hndL : ((cs.map (fun c => nodeOfId y c.rootId)).map
      (fun n => n.id)).Nodup := by
    rw [childNodes_ids]
    have hnds : (preorder (.mk p cs)).Nodup := nodup_of_occurs _ t hnd hocc
    exact rootIds_nodup (nodup_root p cs hnds).2
  have hjL : j < (cs.map (fun c => nodeOfId y c.rootId)).length := by
    rw [List.length_map]
    exact hj
  have hidx := jsFindIndex_nodup_get _ hndL j hjL
  have hpred : ((cs.map (fun c => nodeOfId y c.rootId)).get ⟨j, hjL⟩).id =
      (cs.get ⟨j, hj⟩).rootId := by
    rw [List.get_map]
    rfl
  rw [hpred] at hidx
  rw [hidx]

theorem walkerStep_child_found (y : String → Int) (t : RTree)
    (hnd : (preorder t).Nodup) (hy : yOkB y t = true)
    (p : String) (cs : List RTree) (hocc : Occurs (.mk p cs) t)
    (j : Nat) (hlt : j + 1 < cs.length) :
    walkerStep (graphNodes y t) (treeEdges t)
        ((cs.get ⟨j, Nat.lt_of_succ_lt hlt⟩).rootId) =
      .found ((cs.get ⟨j + 1, hlt⟩).rootId) := by
  rw [walkerStep_child_core y t hnd hy p cs hocc j (Nat.lt_of_succ_lt hlt)]
  have hltL : j + 1 < (cs.map (fun c => nodeOfId y c.rootId)).length := by
    rw [List.length_map]
    exact hlt
  rw [List.getElem?_eq_getElem hltL]
  show NavStep.found ((cs.map (fun c => nodeOfId y c.rootId)).get
    ⟨j + 1, hltL⟩).id = _
  rw [List.get_map]
  rfl

theorem walkerStep_child_last (y : String → Int) (t : RTree)
    (hnd : (preorder t).Nodup) (hy : yOkB y t = true)
    (p : String) (cs : List RTree) (hocc : Occurs (.mk p cs) t)
    (j : Nat) (hj : j < cs.length) (hlast : j + 1 = cs.length) :
    walkerStep (graphNodes y t) (treeEdges t) ((cs.get ⟨j, hj⟩).rootId) =
      .up p := by
  rw [walkerStep_child_core y t hnd hy p cs hocc j hj]
  have hnone : (cs.map (fun c => nodeOfId y c.rootId))[j + 1]? = none := by
    apply List.getElem?_eq_none
    rw [List.length_map]
    omega
  rw [hnone]


/-- "The ancestor walker starting at `x` finishes with optional target
`r` given enough fuel." -/
def WEv (nodes : List GNode) (edges : List GEdge) (x : String)
    (r : Option String) : Prop :=
  ∃ f, walkNext nodes edges f x = some r

/-- "`navigate(x, 'next')` computes target `b` given enough fuel." -/
def NEv (nodes : List GNode) (edges : List GEdge) (a b : String) : Prop :=
  ∃ f, navTarget nodes edges a NavDir.next f = some (some b)

theorem WEv_found (nodes : List GNode) (edges : List GEdge) (x b : String)
    (hx : ¬ x = "") (h : walkerStep nodes edges x = .found b) :
    WEv nodes edges x (some b) := by
  refine ⟨1, ?_⟩
  show (if x = "" then some none
        else match walkerStep nodes edges x with
          | .found tg => some (some tg)
          | .stop => some none
          | .up p => walkNext nodes edges 0 p) = some (some b)
  rw [if_neg hx, h]

theorem WEv_stop (nodes : List GNode) (edges : List GEdge) (x : String)
    (hx : ¬ x = "") (h : walkerStep nodes edges x = .stop) :
    WEv nodes edges x none := by
  refine ⟨1, ?_⟩
  show (if x = "" then some none
        else match walkerStep nodes edges x with
          | .found tg => some (some tg)
          | .stop => some none
          | .up p => walkNext nodes edges 0 p) = some none
  rw [if_neg hx, h]

theorem WEv_up (nodes : List GNode) (edges : List GEdge) (x q : String)
    (r : Option String) (hx : ¬ x = "")
    (h : walkerStep nodes edges x = .up q) (hq : WEv nodes edges q r) :
    WEv nodes edges x r := by
  obtain ⟨f, hf⟩ := hq
  refine ⟨f + 1, ?_⟩
  show (if x = "" then some none
        else match walkerStep nodes edges x with
          | .found tg => some (some tg)
          | .stop => some none
          | .up p => walkNext nodes edges f p) = some r
  rw [if_neg hx, h]
  exact hf

theorem getLast?_cons_of_ne_nil {α : Type _} (a : α) (l : List α)
    (h : l ≠ []) : (a :: l).getLast? = l.getLast? := by
  have hrepr : a :: l = [a] ++ l := rfl
  rw [hrepr, List.getLast?_append]
  cases hl : l.getLast? with
  | none =>
    exact absurd (List.getLast?_eq_none_iff.mp hl) h
  | some z => rfl

theorem preorderF_ne_nil (c : RTree) (cs : List RTree) :
    preorderF (c :: cs) ≠ [] := by
  rw [preorderF_def]
  intro hcon
  exact preorder_ne_nil c (List.append_eq_nil.mp hcon).1

mutual
/-- The last id of a pre-order listing names a leaf: the tree contains
the childless subtree with that root. -/
theorem lastPre_leaf : ∀ (s : RTree) (x : String),
    (preorder s).getLast? = some x → Occurs (.mk x []) s
  | .mk i cs, x, h => by
    cases cs with
    | nil =>
      rw [preorder_def] at h
      have hix : i = x := by
        have : (preorderF ([] : List RTree)) = [] := rfl
        rw [this] at h
        simp at h
        exact h
      subst hix
      exact Or.inl rfl
    | cons c cs' =>
      rw [preorder_def, getLast?_cons_of_ne_nil i _ (preorderF_ne_nil c cs')]
        at h
      exact Or.inr (lastPreF_leaf (c :: cs') x h)

theorem lastPreF_leaf : ∀ (cs : List RTree) (x : String),
    (preorderF cs).getLast? = some x → OccursF (.mk x []) cs
  | [], x, h => by
    have : (preorderF ([] : List RTree)) = [] := rfl
    rw [this] at h
    exact Option.noConfusion h
  | c :: cs', x, h => by
    rw [preorderF_def, List.getLast?_append] at h
    cases hcs : (preorderF cs').getLast? with
    | some z =>
      rw [hcs] at h
      have hzx : z = x := by
        have : (some z).or (preorder c).getLast? = some z := rfl
        rw [this] at h
        exact Option.some.inj h
      subst hzx
      exact Or.inr (lastPreF_leaf cs' z hcs)
    | none =>
      rw [hcs] at h
      have h' : (preorder c).getLast? = some x := by
        have : (Option.none).or (preorder c).getLast? =
            (preorder c).getLast? := rfl
        rw [this] at h
        exact h
      exact Or.inl (lastPre_leaf c x h')
end

theorem leaf_children_empty (y : String → Int) (t : RTree)
    (hnd : (preorder t).Nodup) (hy : yOkB y t = true) (x : String)
    (hocc : Occurs (.mk x []) t) :
    getSortedChildren (graphNodes y t) (treeEdges t) x = [] := by
  rw [getSortedChildren_graph y t hnd hy x [] hocc]
  rfl

theorem navTarget_leaf (y : String → Int) (t : RTree)
    (hnd : (preorder t).Nodup) (hy : yOkB y t = true) (x : String)
    (hmem : x ∈ preorder t) (hocc : Occurs (.mk x []) t) (r : Option String)
    (h : WEv (graphNodes y t) (treeEdges t) x r) :
    ∃ f, navTarget (graphNodes y t) (treeEdges t) x NavDir.next f =
      some r := by
  obtain ⟨f, hf⟩ := h
  refine ⟨f, ?_⟩
  unfold navTarget
  rw [graphNodes_find y t x hmem]
  show (match getSortedChildren (graphNodes y t) (treeEdges t) x with
    | c :: _ => some (some c.id)
    | [] => walkNext (graphNodes y t) (treeEdges t) f x) = some r
  rw [leaf_children_empty y t hnd hy x hocc]
  exact hf

theorem navTarget_first_child (y : String → Int) (t : RTree)
    (hnd : (preorder t).Nodup) (hy : yOkB y t = true)
    (p : String) (c : RTree) (cs' : List RTree)
    (hocc : Occurs (.mk p (c :: cs')) t) (f : Nat) :
    navTarget (graphNodes y t) (treeEdges t) p NavDir.next f =
      some (some c.rootId) := by
  unfold navTarget
  rw [graphNodes_find y t p (occurs_rootId_mem (.mk p (c :: cs')) t hocc)]
  show (match getSortedChildren (graphNodes y t) (treeEdges t) p with
    | c0 :: _ => some (some c0.id)
    | [] => walkNext (graphNodes y t) (treeEdges t) f p) = _
  rw [getSortedChildren_graph y t hnd hy p (c :: cs') hocc]
  rfl


theorem preorderF_head (c : RTree) (cs : List RTree) :
    (preorderF (c :: cs)).head? = some c.rootId := by
  rw [preorderF_def]
  cases c with
  | mk i ds =>
    rw [preorder_def]
    rfl

/-- The heart of C4: for every subtree `s` of `t`, if the ancestor
walker started at `s`'s root evaluates to `k`, then (i) successive
pre-order ids of `s` are successive `navigate('next')` targets, and
(ii) the walker started at the last pre-order id of `s` also evaluates
to `k`. -/
theorem main_chain (y : String → Int) (t : RTree)
    (hnd : (preorder t).Nodup) (hy : yOkB y t = true)
    (hne : "" ∉ preorder t) :
    ∀ (n : Nat) (s : RTree), sizeOf s ≤ n → Occurs s t →
    ∀ (k : Option String),
      WEv (graphNodes y t) (treeEdges t) s.rootId k →
      List.Chain' (NEv (graphNodes y t) (treeEdges t)) (preorder s) ∧
      (∀ x, (preorder s).getLast? = some x →
        WEv (graphNodes y t) (treeEdges t) x k) := by
  have hneid : ∀ x ∈ preorder t, ¬ x = "" := fun x hx hcon => hne (hcon ▸ hx)
  intro n
  induction n with
  | zero =>
    rintro ⟨i, cs⟩ hs
    exfalso
    have hpos : 0 < sizeOf (RTree.mk i cs) := by
      rw [RTree.mk.sizeOf_spec]
      omega
    omega
  | succ n ih =>
    rintro ⟨i, cs⟩ hs hocc k hwk
    have hsz : ∀ c ∈ cs, sizeOf c ≤ n := by
      intro c hc
      have h1 : sizeOf c < sizeOf cs := List.sizeOf_lt_of_mem hc
      have h2 : sizeOf (RTree.mk i cs) = 1 + sizeOf i + sizeOf cs :=
        RTree.mk.sizeOf_spec i cs
      omega
    have hoccC : ∀ c ∈ cs, Occurs c t := fun c hc => occurs_child hocc hc
    have hchaincs : List.Chain' (fun a b =>
        WEv (graphNodes y t) (treeEdges t) a.rootId (some b.rootId)) cs := by
      rw [List.chain'_iff_get]
      intro j hj
      have hlt : j + 1 < cs.length := by omega
      apply WEv_found
      · apply hneid
        exact occurs_rootId_mem _ t
          (hoccC _ (List.get_mem cs j (Nat.lt_of_succ_lt hlt)))
      · exact walkerStep_child_found y t hnd hy i cs hocc j hlt
    have hlastk : ∀ c0, cs.getLast? = some c0 →
        WEv (graphNodes y t) (treeEdges t) c0.rootId k := by
      intro c0 hc0
      have hnec : cs ≠ [] := by
        intro hcon
        rw [hcon] at hc0
        exact Option.noConfusion hc0
      have hlen : 0 < cs.length := List.length_pos.mpr hnec
      have hc0' : c0 = cs.get ⟨cs.length - 1, by omega⟩ := by
        rw [List.getLast?_eq_getLast cs hnec] at hc0
        have h2 := List.getLast_eq_get cs hnec
        rw [h2] at hc0
        exact (Option.some.inj hc0).symm
      rw [hc0']
      refine WEv_up _ _ _ i k ?_ ?_ hwk
      · apply hneid
        exact occurs_rootId_mem _ t
          (hoccC _ (List.get_mem cs _ _))
      · exact walkerStep_child_last y t hnd hy i cs hocc (cs.length - 1)
          (by omega) (by omega)
    have inner : ∀ (l : List RTree), (∀ c ∈ l, sizeOf c ≤ n) →
        (∀ c ∈ l, Occurs c t) →
        List.Chain' (fun a b =>
          WEv (graphNodes y t) (treeEdges t) a.rootId (some b.rootId)) l →
        (∀ c0, l.getLast? = some c0 →
          WEv (graphNodes y t) (treeEdges t) c0.rootId k) →
        List.Chain' (NEv (graphNodes y t) (treeEdges t)) (preorderF l) ∧
        (∀ x, (preorderF l).getLast? = some x →
          WEv (graphNodes y t) (treeEdges t) x k) := by
      intro l
      induction l with
      | nil =>
        intro _ _ _ _
        constructor
        · exact List.chain'_nil
        · intro x hx
          have hnil : (preorderF ([] : List RTree)) = [] := rfl
          rw [hnil] at hx
          exact Option.noConfusion hx
      | cons c l' ihl =>
        intro hszl hoccl hch hlk
        cases l' with
        | nil =>
          have hw : WEv (graphNodes y t) (treeEdges t) c.rootId k := by
            apply hlk c
            rfl
          obtain ⟨hchain_c, hlast_c⟩ := ih c (hszl c (List.mem_cons_self c _))
            (hoccl c (List.mem_cons_self c _)) k hw
          have hnilF : (preorderF ([] : List RTree)) = [] := rfl
          constructor
          · show List.Chain' _ (preorderF [c])
            rw [preorderF_def, hnilF, List.append_nil]
            exact hchain_c
          · intro x hx
            rw [preorderF_def, hnilF, List.append_nil] at hx
            exact hlast_c x hx
        | cons d l'' =>
          rw [List.chain'_cons] at hch
          obtain ⟨hchain_c, hlast_c⟩ := ih c (hszl c (List.mem_cons_self c _))
            (hoccl c (List.mem_cons_self c _)) (some d.rootId) hch.1
          obtain ⟨hchF, hlastF⟩ := ihl
            (fun c0 hc0 => hszl c0 (List.mem_cons_of_mem c hc0))
            (fun c0 hc0 => hoccl c0 (List.mem_cons_of_mem c hc0))
            hch.2
            (fun c0 hc0 => hlk c0 (by
              rw [getLast?_cons_of_ne_nil c _ (List.cons_ne_nil d l'')]
              exact hc0))
          constructor
          · show List.Chain' _ (preorderF (c :: d :: l''))
            rw [preorderF_def, List.chain'_append]
            refine ⟨hchain_c, hchF, ?_⟩
            intro xl hxl yh hyh
            rw [preorderF_head d l''] at hyh
            have hyh' : yh = d.rootId := by
              cases hyh
              rfl
            subst hyh'
            have hwlast : WEv (graphNodes y t) (treeEdges t) xl
                (some d.rootId) := hlast_c xl hxl
            have hleafc : Occurs (.mk xl []) c := lastPre_leaf c xl hxl
            have hleaft : Occurs (.mk xl []) t :=
              occurs_trans _ c t hleafc (hoccl c (List.mem_cons_self c _))
            have hxmem : xl ∈ preorder t :=
              occurs_rootId_mem (.mk xl []) t hleaft
            exact navTarget_leaf y t hnd hy xl hxmem hleaft
              (some d.rootId) hwlast
          · intro x hx
            rw [preorderF_def, List.getLast?_append] at hx
            cases hgl : (preorderF (d :: l'')).getLast? with
            | none =>
              exact absurd (List.getLast?_eq_none_iff.mp hgl)
                (preorderF_ne_nil d l'')
            | some z =>
              rw [hgl] at hx
              have hor : (some z).or (preorder c).getLast? = some z := rfl
              rw [hor] at hx
              have hzx : z = x := Option.some.inj hx
              subst hzx
              exact hlastF z hgl
    cases cs with
    | nil =>
      constructor
      · show List.Chain' _ (preorder (.mk i []))
        rw [preorder_def]
        have hnilF : (preorderF ([] : List RTree)) = [] := rfl
        rw [hnilF]
        exact List.chain'_singleton i
      · intro x hx
        rw [preorder_def] at hx
        have hnilF : (preorderF ([] : List RTree)) = [] := rfl
        rw [hnilF] at hx
        simp only [List.getLast?_singleton] at hx
        have hix : i = x := Option.some.inj hx
        rw [← hix]
        exact hwk
    | cons c cs' =>
      obtain ⟨hchF, hlastF⟩ := inner (c :: cs') hsz hoccC hchaincs hlastk
      constructor
      · show List.Chain' _ (preorder (.mk i (c :: cs')))
        rw [preorder_def, List.chain'_cons']
        constructor
        · intro b hb
          rw [preorderF_head c cs'] at hb
          have hb' : b = c.rootId := by
            cases hb
            rfl
          subst hb'
          exact ⟨0, navTarget_first_child y t hnd hy i c cs' hocc 0⟩
        · exact hchF
      · intro x hx
        rw [preorder_def,
          getLast?_cons_of_ne_nil i _ (preorderF_ne_nil c cs')] at hx
        exact hlastF x hx


/-! Fuel monotonicity and fuel pinning for the navigation functions. -/

theorem walkNext_succ_eq (nodes : List GNode) (edges : List GEdge)
    (f : Nat) (x : String) :
    walkNext nodes edges (f + 1) x =
      if x = "" then some none
      else match walkerStep nodes edges x with
        | .found tg => some (some tg)
        | .stop => some none
        | .up p => walkNext nodes edges f p := rfl

theorem walkNext_mono (nodes : List GNode) (edges : List GEdge) :
    ∀ (f g : Nat) (x : String) (r : Option String),
      walkNext nodes edges f x = some r → f ≤ g →
      walkNext nodes edges g x = some r := by
  intro f
  induction f with
  | zero =>
    intro g x r h _
    exact absurd h (fun hc => Option.noConfusion hc)
  | succ f ihf =>
    intro g x r h hfg
    cases g with
    | zero => exact absurd hfg (Nat.not_succ_le_zero f)
    | succ g' =>
      have hfg' : f ≤ g' := Nat.le_of_succ_le_succ hfg
      rw [walkNext_succ_eq] at h
      rw [walkNext_succ_eq]
      by_cases hx : x = ""
      · rw [if_pos hx] at h ⊢
        exact h
      · rw [if_neg hx] at h ⊢
        cases hstep : walkerStep nodes edges x with
        | found tg =>
          simp only [hstep] at h ⊢
          exact h
        | stop =>
          simp only [hstep] at h ⊢
          exact h
        | up p =>
          simp only [hstep] at h ⊢
          exact ihf g' p r h hfg'

theorem navTarget_mono (nodes : List GNode) (edges : List GEdge)
    (a : String) (dir : NavDir) (f g : Nat) (r : Option String)
    (h : navTarget nodes edges a dir f = some r) (hfg : f ≤ g) :
    navTarget nodes edges a dir g = some r := by
  unfold navTarget at h ⊢
  cases hfind : nodes.find? (fun n => n.id = a) with
  | none =>
    simp only [hfind] at h ⊢
    exact h
  | some cur =>
    simp only [hfind] at h ⊢
    cases dir with
    | next =>
      cases hch : getSortedChildren nodes edges a with
      | cons c cs =>
        simp only [hch] at h ⊢
        exact h
      | nil =>
        simp only [hch] at h ⊢
        exact walkNext_mono nodes edges f g a r h hfg
    | prev => exact h

/-- On a graph whose edge targets all resolve, any navigation value
reachable with some fuel is already computed at fuel `nodes.length + 2`. -/
theorem navTarget_pin (nodes : List GNode) (edges : List GEdge)
    (htargets : ∀ e ∈ edges, ∃ n ∈ nodes, e.target = n.id)
    (a : String) (dir : NavDir) (r : Option String)
    (h : ∃ f, navTarget nodes edges a dir f = some r) :
    navTarget nodes edges a dir (nodes.length + 2) = some r := by
  obtain ⟨f, hf⟩ := h
  have hsome := navigate_terminates nodes edges htargets a dir
  obtain ⟨r2, hr2⟩ := Option.isSome_iff_exists.mp hsome
  have h1 := navTarget_mono nodes edges a dir f (max f (nodes.length + 2))
    r hf (Nat.le_max_left _ _)
  have h2 := navTarget_mono nodes edges a dir (nodes.length + 2)
    (max f (nodes.length + 2)) r2 hr2 (Nat.le_max_right _ _)
  rw [h1] at h2
  rw [hr2]
  exact h2.symm

/-- Every edge target of a tree graph resolves to a node of the graph. -/
theorem tree_htargets (y : String → Int) (t : RTree) :
    ∀ e ∈ treeEdges t, ∃ n ∈ graphNodes y t, e.target = n.id := by
  intro e he
  have hm := treeEdges_target_mem t e he
  have hm2 : e.target ∈ preorder t := by
    cases t with
    | mk i cs =>
      rw [preorder_def]
      exact List.mem_cons_of_mem i hm
  refine ⟨nodeOfId y e.target, ?_, rfl⟩
  rw [graphNodes]
  exact List.mem_map_of_mem (nodeOfId y) hm2

/-- `navigate(root, 'prev')` is a no-op: the root has no incoming edge. -/
theorem navTarget_prev_root (y : String → Int) (t : RTree)
    (hnd : (preorder t).Nodup) (f : Nat) :
    navTarget (graphNodes y t) (treeEdges t) t.rootId NavDir.prev f =
      some none := by
  unfold navTarget
  simp only [graphNodes_find y t t.rootId (rootId_mem_preorder t)]
  simp only [root_incoming_none t hnd]

/-- `navigate(c, 'prev')` on the `j`-th sorted child of `p` targets the
previous sibling when `0 < j`, else the parent `p`. -/
theorem navTarget_prev_child (y : String → Int) (t : RTree)
    (hnd : (preorder t).Nodup) (hy : yOkB y t = true)
    (p : String) (cs : List RTree) (hocc : Occurs (.mk p cs) t)
    (j : Nat) (hj : j < cs.length) (f : Nat) :
    navTarget (graphNodes y t) (treeEdges t) ((cs.get ⟨j, hj⟩).rootId)
        NavDir.prev f =
      some (some (if 0 < j then
        (cs.get ⟨j - 1, Nat.lt_of_le_of_lt (Nat.sub_le j 1) hj⟩).rootId
      else p)) := by
  have hc : cs.get ⟨j, hj⟩ ∈ cs := List.get_mem cs j hj
  have hmem : (cs.get ⟨j, hj⟩).rootId ∈ preorder t :=
    occurs_rootId_mem _ t (occurs_child hocc hc)
  have hndF : (preorderF cs).Nodup := by
    have hsub := nodup_of_occurs (.mk p cs) t hnd hocc
    exact (nodup_root p cs hsub).2
  have hidnd : ((cs.map (fun c => nodeOfId y c.rootId)).map
      (fun n => n.id)).Nodup := by
    rw [childNodes_ids]
    exact rootIds_nodup hndF
  have hjL : j < (cs.map (fun c => nodeOfId y c.rootId)).length := by
    rw [List.length_map]
    exact hj
  have hfindIdx : jsFindIndex (fun n => n.id = (cs.get ⟨j, hj⟩).rootId)
      (cs.map (fun c => nodeOfId y c.rootId)) = some j := by
    have h0 := jsFindIndex_nodup_get (cs.map (fun c => nodeOfId y c.rootId))
      hidnd j hjL
    rw [childNodes_get y cs j hj] at h0
    exact h0
  unfold navTarget
  simp only [graphNodes_find y t _ hmem]
  simp only [treeEdges_find_target p cs (cs.get ⟨j, hj⟩) hc t hnd hocc]
  simp only [getSortedChildren_graph y t hnd hy p cs hocc]
  simp only [hfindIdx]
  by_cases hj0 : 0 < j
  · rw [if_pos hj0, if_pos hj0]
    have hj1L : j - 1 < (cs.map (fun c => nodeOfId y c.rootId)).length := by
      rw [List.length_map]
      exact Nat.lt_of_le_of_lt (Nat.sub_le j 1) hj
    rw [List.getElem?_eq_getElem hj1L]
    have hg : (cs.map (fun c => nodeOfId y c.rootId))[j - 1] =
        nodeOfId y (cs.get ⟨j - 1,
          Nat.lt_of_le_of_lt (Nat.sub_le j 1) hj⟩).rootId := by
      rw [List.getElem_map]
      rfl
    rw [hg]
    rfl
  · rw [if_neg hj0, if_neg hj0]


/-! ### C4: pre-order traversal by `navigate` -/

/-- C4. For every tree graph (ids pairwise distinct and nonempty,
children sorted by strictly ascending `position.y`): (i) successive
pre-order ids are successive `navigate('next')` targets at the uniform
fuel `nodes.length + 2`; (ii) `navigate('next')` at the last pre-order
id is a no-op; (iii) `navigate('prev')` at the root is a no-op; and
(iv) `navigate('prev')` at the `j`-th sorted child of any parent `p`
targets the previous sibling when `0 < j` and `p` itself when `j = 0`
— so `prev` does NOT retrace reverse pre-order across a sibling whose
subtree is nontrivial. -/
theorem preorder_navigation (y : String → Int) (t : RTree)
    (hnd : (preorder t).Nodup) (hy : yOkB y t = true)
    (hne : "" ∉ preorder t) :
    List.Chain' (fun a b => navTarget (graphNodes y t) (treeEdges t) a
        NavDir.next ((graphNodes y t).length + 2) = some (some b))
      (preorder t) ∧
    (∀ x, (preorder t).getLast? = some x →
      navTarget (graphNodes y t) (treeEdges t) x NavDir.next
        ((graphNodes y t).length + 2) = some none) ∧
    (∀ f, navTarget (graphNodes y t) (treeEdges t) t.rootId NavDir.prev f =
      some none) ∧
    (∀ p cs, Occurs (.mk p cs) t → ∀ j, ∀ hj : j < cs.length, ∀ f,
      navTarget (graphNodes y t) (treeEdges t) ((cs.get ⟨j, hj⟩).rootId)
          NavDir.prev f =
        some (some (if 0 < j then
          (cs.get ⟨j - 1, Nat.lt_of_le_of_lt (Nat.sub_le j 1) hj⟩).rootId
        else p))) := by
  have htargets := tree_htargets y t
  have hroot_ne : ¬ t.rootId = "" := by
    intro hcon
    apply hne
    rw [← hcon]
    exact rootId_mem_preorder t
  have hwk0 : WEv (graphNodes y t) (treeEdges t) t.rootId none :=
    WEv_stop _ _ _ hroot_ne (walkerStep_root y t hnd)
  obtain ⟨hchainNEv, hlastW⟩ := main_chain y t hnd hy hne (sizeOf t) t
    (Nat.le_refl _) (occurs_self t) none hwk0
  refine ⟨?_, ?_, ?_, ?_⟩
  · refine List.Chain'.imp ?_ hchainNEv
    intro a b hn
    exact navTarget_pin (graphNodes y t) (treeEdges t) htargets a
      NavDir.next (some b) hn
  · intro x hx
    have hw : WEv (graphNodes y t) (treeEdges t) x none := hlastW x hx
    have hleaf : Occurs (.mk x []) t := lastPre_leaf t x hx
    have hmem : x ∈ preorder t := occurs_rootId_mem (.mk x []) t hleaf
    exact navTarget_pin (graphNodes y t) (treeEdges t) htargets x
      NavDir.next none (navTarget_leaf y t hnd hy x hmem hleaf none hw)
  · intro f
    exact navTarget_prev_root y t hnd f
  · intro p cs hocc j hj f
    exact navTarget_prev_child y t hnd hy p cs hocc j hj f

/-- The concrete tree R → \x7bA → A1, B\x7d with ascending y layout. -/
def c4Tree : RTree :=
  .mk "R" [.mk "A" [.mk "A1" []], .mk "B" []]

def c4Y : String → Int := fun s =>
  if s = "A" then 1 else if s = "A1" then 2 else if s = "B" then 3 else 0

theorem preorder_navigation_witness :
    (preorder c4Tree).Nodup ∧ yOkB c4Y c4Tree = true ∧
    "" ∉ preorder c4Tree ∧
    List.Chain' (fun a b => navTarget (graphNodes c4Y c4Tree)
        (treeEdges c4Tree) a NavDir.next
        ((graphNodes c4Y c4Tree).length + 2) = some (some b))
      (preorder c4Tree) :=
  ⟨by decide, by decide, by decide,
   (preorder_navigation c4Y c4Tree (by decide) (by decide) (by decide)).1⟩

/-- Counterexample to the reverse-retrace half of the original claim:
on `c4Tree` the pre-order is `[R, A, A1, B]`, so retracing it backwards
from the last node `B` must first visit `A1`; but `navigate(B, 'prev')`
targets the previous sibling `A`, not `A1`. -/
theorem preorder_prev_counterexample :
    preorder c4Tree = ["R", "A", "A1", "B"] ∧
    (preorder c4Tree).getLast? = some "B" ∧
    navTarget (graphNodes c4Y c4Tree) (treeEdges c4Tree) "B" NavDir.prev 6 =
      some (some "A") ∧
    ¬ ("A" = "A1") := by decide

end Kleem
